import Mathlib

/-!
Verification of the Confluence ADF roundtrip-editing subsystem
(`mcp_json_diff_roundtrip.py`, `insert_section.py`, `confluence_adf_utils.py`).

The ADF document tree is modelled as a nested inductive `Node` mirroring the
JSON dictionaries the Python code walks: an optional `"type"` string, an
attribute mapping, an optional `"content"` array of child nodes, and an
optional `"text"` literal.  All functions are direct transcriptions of the
Python source; word-overlap scores are represented as exact rationals.
-/

namespace ADF

/-- Characters stripped by Python `str.strip()` / split by `str.split()`. -/
def isPySpace (c : Char) : Bool :=
  c = ' ' || c = '\t' || c = '\n' || c = '\r' || c = '\x0B' || c = '\x0C'

/-- Python `str.strip()`. -/
def pyStrip (s : String) : String :=
  ⟨((s.toList.dropWhile isPySpace).reverse.dropWhile isPySpace).reverse⟩

/-- Python `str.lower()` (ASCII case folding suffices here). -/
def pyLower (s : String) : String :=
  ⟨s.toList.map Char.toLower⟩

/-- Python `str.split()` with no separator: maximal non-whitespace runs. -/
def pyWords (s : String) : List String :=
  go s.toList []
where
  go : List Char → List Char → List String
    | [], acc => if acc = [] then [] else [⟨acc.reverse⟩]
    | c :: cs, acc =>
      if isPySpace c then
        (if acc = [] then [] else [(⟨acc.reverse⟩ : String)]) ++ go cs []
      else go cs (c :: acc)

/-- Python `s.split(sep)` for a single-character separator (splits at every
occurrence, keeping empty pieces). -/
def pySplitChar (sep : Char) (s : String) : List String :=
  go s.toList []
where
  go : List Char → List Char → List String
    | [], acc => [⟨acc.reverse⟩]
    | c :: cs, acc =>
      if c = sep then (⟨acc.reverse⟩ : String) :: go cs []
      else go cs (c :: acc)

/-- Python `s.startswith(pre)`. -/
def pyStartsWith (s pre : String) : Bool :=
  pre.toList.isPrefixOf s.toList

/-- Python `needle in haystack` substring test. -/
def strContains (haystack needle : String) : Bool :=
  go needle.toList haystack.toList
where
  go (nd h : List Char) : Bool :=
    nd.isPrefixOf h ||
      match h with
      | [] => false
      | _ :: t => go nd t

/-- A scalar attribute value (string or integer). -/
inductive AttrVal where
  | s (v : String)
  | n (v : Int)
deriving DecidableEq, Repr

/-- The `attrs` dictionary of an ADF node. -/
abbrev Attrs := List (String × AttrVal)

/-- Python `attrs.get(key)` (first binding wins, as in a dict). -/
def attrsGet (a : Attrs) (key : String) : Option AttrVal :=
  match a.find? (fun p => p.1 = key) with
  | some p => some p.2
  | none => none

/-- Python `key in attrs`. -/
def attrsHasKey (a : Attrs) (key : String) : Bool :=
  (a.find? (fun p => p.1 = key)).isSome

/-- Python `node.get("attrs", \x7b\x7d).get("level", 1)` for integer levels. -/
def attrsLevel (a : Attrs) : Int :=
  match attrsGet a "level" with
  | some (.n k) => k
  | _ => 1

/-- An ADF node: the JSON dictionaries traversed by the Python code.
`ntype` is the `"type"` entry, `content` the `"content"` array (`none` when
the key is absent), `text` the `"text"` literal of text leaves. -/
inductive Node where
  | mk (ntype : Option String) (attrs : Attrs) (content : Option (List Node)) (text : Option String)

mutual
def Node.decEq : (a b : Node) → Decidable (a = b)
  | .mk t1 a1 c1 x1, .mk t2 a2 c2 x2 =>
    if ht : t1 = t2 then
      if ha : a1 = a2 then
        if hx : x1 = x2 then
          match c1, c2 with
          | none, none => isTrue (by rw [ht, ha, hx])
          | none, some _ => isFalse (by intro h; injection h; simp_all)
          | some _, none => isFalse (by intro h; injection h; simp_all)
          | some l1, some l2 =>
            match Node.decEqList l1 l2 with
            | isTrue hl => isTrue (by rw [ht, ha, hx, hl])
            | isFalse hl => isFalse (by intro h; injection h; simp_all)
        else isFalse (by intro h; injection h; simp_all)
      else isFalse (by intro h; injection h; simp_all)
    else isFalse (by intro h; injection h; simp_all)
  termination_by structural a _ => a

def Node.decEqList : (l1 l2 : List Node) → Decidable (l1 = l2)
  | [], [] => isTrue rfl
  | [], _ :: _ => isFalse (by simp)
  | _ :: _, [] => isFalse (by simp)
  | a :: as, b :: bs =>
    match Node.decEq a b with
    | isTrue h1 =>
      match Node.decEqList as bs with
      | isTrue h2 => isTrue (by rw [h1, h2])
      | isFalse h2 => isFalse (by intro h; injection h; simp_all)
    | isFalse h1 => isFalse (by intro h; injection h; simp_all)
  termination_by structural l1 _ => l1
end

instance : DecidableEq Node := Node.decEq

instance {α : Type} [DecidableEq α] : DecidableEq (Except Unit α) := fun a b =>
  match a, b with
  | .ok x, .ok y =>
    if h : x = y then isTrue (by rw [h])
    else isFalse (fun hh => h (by injection hh))
  | .error x, .error y => isTrue (by cases x; cases y; rfl)
  | .ok _, .error _ => isFalse (fun hh => Except.noConfusion hh)
  | .error _, .ok _ => isFalse (fun hh => Except.noConfusion hh)

def Node.ntype : Node → Option String
  | .mk t _ _ _ => t

def Node.attrs : Node → Attrs
  | .mk _ a _ _ => a

def Node.content : Node → Option (List Node)
  | .mk _ _ c _ => c

def Node.text : Node → Option String
  | .mk _ _ _ x => x

/-- `TextNode`: a text leaf with its dotted JSON path. -/
structure TextNode where
  path : String
  text : String
deriving DecidableEq, Repr

/-- `TextChange`: a text replacement addressed by path. -/
structure TextChange where
  path : String
  old_text : String
  new_text : String
deriving DecidableEq, Repr

/-- `ADFTextExtractor.MACRO_NODE_TYPES`. -/
def MACRO_NODE_TYPES : List String :=
  ["inlineExtension", "extension", "bodiedExtension", "panel", "expand"]

/-- The macro test of `_extract_recursive`: macro node type, or an
`extensionKey`/`panelType` attribute. -/
def isMacroNode (n : Node) : Bool :=
  (match n.ntype with
   | some t => MACRO_NODE_TYPES.contains t
   | none => false)
  || attrsHasKey n.attrs "extensionKey"
  || attrsHasKey n.attrs "panelType"

/-- Path of child `i` of the node at `path` (`f"\x7bpath\x7d.content.\x7bi\x7d"`). -/
def childPath (path : String) (i : Nat) : String :=
  if path = "" then "content." ++ toString i else path ++ ".content." ++ toString i

/-- Path of the `text` field of the node at `path`. -/
def textPath (path : String) : String :=
  if path = "" then "text" else path ++ ".text"

mutual
/-- `ADFTextExtractor._extract_recursive` (functional form: returns the
nodes appended by the Python in-place accumulation). -/
def extractRec (skip : Bool) (n : Node) (path : String) (insideMacro : Bool) :
    List TextNode :=
  match n with
  | .mk nt nattrs ncontent ntext =>
    let isMacro := isMacroNode (.mk nt nattrs ncontent ntext)
    if isMacro && skip then []
    else
      (if nt = some "text" && !(insideMacro && skip) then
        let t := ntext.getD ""
        if pyStrip t ≠ "" then [⟨textPath path, t⟩] else []
      else []) ++
      (match ncontent with
       | some l => extractRecList skip l path 0 (isMacro || insideMacro)
       | none => [])
  termination_by structural n

/-- The `for i, child in enumerate(content)` loop of `_extract_recursive`. -/
def extractRecList (skip : Bool) (l : List Node) (path : String) (i : Nat)
    (insideMacro : Bool) : List TextNode :=
  match l with
  | [] => []
  | c :: cs =>
      extractRec skip c (childPath path i) insideMacro ++
      extractRecList skip cs path (i + 1) insideMacro
  termination_by structural l
end

/-- `ADFTextExtractor.extract_text_nodes` (`skip` = `skip_macro_bodies`). -/
def extract_text_nodes (skip : Bool) (adf : Node) : List TextNode :=
  extractRec skip adf "" false

/-- Python `'#' * level` (empty for non-positive counts). -/
def strRepeat (c : Char) (k : Int) : String :=
  ⟨List.replicate k.toNat c⟩

/-- Python `attrs.get("language", "")` for string attributes. -/
def attrsLanguage (a : Attrs) : String :=
  match attrsGet a "language" with
  | some (.s v) => v
  | _ => ""

mutual
/-- `SimpleMarkdownConverter._extract_text`: concatenated literal text of a
node and its descendants. -/
def extractAllText (n : Node) : String :=
  match n with
  | .mk nt _ ncontent ntext =>
    if nt = some "text" then ntext.getD ""
    else
      match ncontent with
      | some l => extractAllTextList l
      | none => ""
  termination_by structural n

def extractAllTextList (l : List Node) : String :=
  match l with
  | [] => ""
  | c :: cs => extractAllText c ++ extractAllTextList cs
  termination_by structural l
end

/-- `SimpleMarkdownConverter._convert_list`: one line per item plus a blank. -/
def convertList (items : List Node) (ordered : Bool) : List String :=
  (items.enum.map (fun p =>
    (if ordered then toString (p.1 + 1) ++ "." else "-") ++ " " ++ extractAllText p.2))
  ++ [""]

/-- Python truthiness of an optional attribute value, rendered as the string
an f-string would produce. -/
def truthyAttr : Option AttrVal → Option String
  | some (.s v) => if v = "" then none else some v
  | some (.n k) => if k = 0 then none else some (toString k)
  | none => none

/-- The macro placeholder identifier of `_convert_recursive`
(`attrs.get("extensionKey") or attrs.get("panelType") or node_type`). -/
def macroId (nt : Option String) (a : Attrs) : String :=
  match truthyAttr (attrsGet a "extensionKey") with
  | some v => v
  | none =>
    match truthyAttr (attrsGet a "panelType") with
    | some v => v
    | none =>
      match nt with
      | some t => t
      | none => "None"

mutual
/-- `SimpleMarkdownConverter._convert_recursive` (returns appended lines). -/
def convertRec (n : Node) (insideMacro : Bool) (includeMacroBodies : Bool) :
    List String :=
  match n with
  | .mk nt nattrs ncontent ntext =>
    let isMacro := isMacroNode (.mk nt nattrs ncontent ntext)
    let placeholder : List String :=
      if isMacro then ["\n<!-- MACRO: " ++ macroId nt nattrs ++ " -->\n"] else []
    if isMacro && !includeMacroBodies then placeholder
    else
      placeholder ++
      (if nt = some "heading" then
        [strRepeat '#' (attrsLevel nattrs) ++ " " ++
          extractAllText (.mk nt nattrs ncontent ntext)]
      else if nt = some "paragraph" then
        let t := extractAllText (.mk nt nattrs ncontent ntext)
        if pyStrip t ≠ "" then [t, ""] else []
      else if nt = some "bulletList" then
        convertList (ncontent.getD []) false
      else if nt = some "orderedList" then
        convertList (ncontent.getD []) true
      else if nt = some "codeBlock" then
        ["\x60\x60\x60" ++ attrsLanguage nattrs,
          extractAllText (.mk nt nattrs ncontent ntext), "\x60\x60\x60", ""]
      else if nt = some "blockquote" then
        (pySplitChar '\n' (extractAllText (.mk nt nattrs ncontent ntext))).map
          (fun ln => "> " ++ ln) ++ [""]
      else if nt = some "doc" then
        match ncontent with
        | some l => convertRecList l insideMacro includeMacroBodies
        | none => []
      else
        match ncontent with
        | some l => convertRecList l (isMacro || insideMacro) includeMacroBodies
        | none => [])
  termination_by structural n

def convertRecList (l : List Node) (insideMacro : Bool) (includeMacroBodies : Bool) :
    List String :=
  match l with
  | [] => []
  | c :: cs =>
      convertRec c insideMacro includeMacroBodies ++
      convertRecList cs insideMacro includeMacroBodies
  termination_by structural l
end

/-- `SimpleMarkdownConverter.convert_to_markdown`. -/
def convert_to_markdown (adf : Node) (includeMacroBodies : Bool) : String :=
  String.intercalate "\n" (convertRec adf false includeMacroBodies)

/-! ### `TextDiffer`: markdown stripping and greedy word-overlap matching -/

/-- `re.sub(r"^#\x7b1,6\x7d\s+", "", line)`: strip one to six leading `#`
followed by whitespace. -/
def subHeader (s : String) : String :=
  let cs := s.toList
  let k := (cs.takeWhile (fun c => c = '#')).length
  if 1 ≤ k ∧ k ≤ 6 then
    match cs.drop k with
    | c :: rest => if isPySpace c then ⟨rest.dropWhile isPySpace⟩ else s
    | [] => s
  else s

/-- `re.sub(r"^[-*+]\s+", "", line)`: strip a leading list marker. -/
def subListMarker (s : String) : String :=
  match s.toList with
  | m :: c :: rest =>
    if (m = '-' || m = '*' || m = '+') && isPySpace c then
      ⟨(c :: rest).dropWhile isPySpace⟩
    else s
  | _ => s

/-- `re.sub(r"^\d+\.\s+", "", line)`: strip a leading `N.` marker. -/
def subNumMarker (s : String) : String :=
  let cs := s.toList
  let ds := cs.takeWhile Char.isDigit
  if ds.length ≥ 1 then
    match cs.drop ds.length with
    | '.' :: c :: rest =>
      if isPySpace c then ⟨(c :: rest).dropWhile isPySpace⟩ else s
    | _ => s
  else s

/-- `re.sub(r"^>\s+", "", line)`: strip a leading blockquote marker. -/
def subQuoteMarker (s : String) : String :=
  match s.toList with
  | '>' :: c :: rest =>
    if isPySpace c then ⟨(c :: rest).dropWhile isPySpace⟩ else s
  | _ => s

/-- First split of `cs` as `inner ++ [d, d] ++ after` with minimal `inner`
(the lazy search for the closing delimiter pair). -/
def findClose2 (d : Char) : List Char → Option (List Char × List Char)
  | [] => none
  | c :: rest =>
    if c = d then
      match rest with
      | c2 :: rest2 =>
        if c2 = d then some ([], rest2)
        else
          match findClose2 d rest with
          | some (mid, after) => some (c :: mid, after)
          | none => none
      | [] => none
    else
      match findClose2 d rest with
      | some (mid, after) => some (c :: mid, after)
      | none => none

/-- First split of `cs` as `inner ++ [d] ++ after` with minimal `inner`. -/
def findClose1 (d : Char) : List Char → Option (List Char × List Char)
  | [] => none
  | c :: rest =>
    if c = d then some ([], rest)
    else
      match findClose1 d rest with
      | some (mid, after) => some (c :: mid, after)
      | none => none

theorem findClose2_length (d : Char) :
    ∀ l mid after, findClose2 d l = some (mid, after) →
      after.length + 2 + mid.length = l.length := by
  intro l
  induction l with
  | nil => intro mid after h; simp [findClose2] at h
  | cons c rest ih =>
    intro mid after h
    simp only [findClose2] at h
    split at h
    · cases rest with
      | nil => simp at h
      | cons c2 rest2 =>
        split at h
        next c2' rest2' heq =>
          injection heq with he1 he2
          subst he1; subst he2
          split at h
          · injection h with h1
            injection h1 with h2 h3
            subst h2; subst h3
            simp
          · split at h
            next mid' after' hfc =>
              injection h with h1
              injection h1 with h2 h3
              subst h2; subst h3
              have := ih _ _ hfc
              simp only [List.length_cons] at this ⊢
              omega
            next => exact absurd h (by simp)
        next heq => simp at heq
    · split at h
      next mid' after' hfc =>
        injection h with h1
        injection h1 with h2 h3
        subst h2; subst h3
        have := ih _ _ hfc
        simp only [List.length_cons] at this ⊢
        omega
      next => exact absurd h (by simp)

theorem findClose1_length (d : Char) :
    ∀ l mid after, findClose1 d l = some (mid, after) →
      after.length + 1 + mid.length = l.length := by
  intro l
  induction l with
  | nil => intro mid after h; simp [findClose1] at h
  | cons c rest ih =>
    intro mid after h
    simp only [findClose1] at h
    split at h
    · injection h with h1
      injection h1 with h2 h3
      subst h2; subst h3
      simp
    · split at h
      next mid' after' hfc =>
        injection h with h1
        injection h1 with h2 h3
        subst h2; subst h3
        have := ih _ _ hfc
        simp only [List.length_cons] at this ⊢
        omega
      next => exact absurd h (by simp)

/-- `re.sub(r"\*\*(.+?)\*\*", r"\1", line)` generalised over the delimiter:
replace each non-overlapping lazy `dd(.+?)dd` match by its inner text,
scanning left to right and resuming after each match.  The scan consumes at
least one character per step, so `fuel = cs.length` (as supplied by
`subPair2`) never runs out (`findClose2_length` bounds the `after` branch);
fuel keeps the recursion structural so that it evaluates in the kernel. -/
def subPair2Go (d : Char) : Nat → List Char → List Char
  | 0, cs => cs
  | _ + 1, [] => []
  | _ + 1, [c] => [c]
  | fuel + 1, c :: c2 :: rest2 =>
    if c = d ∧ c2 = d then
      match rest2 with
      | c3 :: rest3 =>
        match findClose2 d rest3 with
        | some (mid, after) => (c3 :: mid) ++ subPair2Go d fuel after
        | none => c :: subPair2Go d fuel (c2 :: c3 :: rest3)
      | [] => [c, c2]
    else c :: subPair2Go d fuel (c2 :: rest2)

def subPair2 (d : Char) (cs : List Char) : List Char :=
  subPair2Go d cs.length cs

/-- `re.sub(r"\*(.+?)\*", r"\1", line)` generalised over the delimiter:
replace each non-overlapping lazy `d(.+?)d` match by its inner text
(fuelled like `subPair2Go`, justified by `findClose1_length`). -/
def subPair1Go (d : Char) : Nat → List Char → List Char
  | 0, cs => cs
  | _ + 1, [] => []
  | fuel + 1, c :: rest =>
    if c = d then
      match rest with
      | c2 :: rest2 =>
        match findClose1 d rest2 with
        | some (mid, after) => (c2 :: mid) ++ subPair1Go d fuel after
        | none => c :: subPair1Go d fuel (c2 :: rest2)
      | [] => [c]
    else c :: subPair1Go d fuel rest

def subPair1 (d : Char) (cs : List Char) : List Char :=
  subPair1Go d cs.length cs

/-- Backtick character (for fenced/inline code markers). -/
def btick : Char := Char.ofNat 96

/-- The per-line body of `TextDiffer._extract_text_from_markdown`: `none`
when the line is skipped, otherwise the stripped candidate text. -/
def stripMarkdownLine (line : String) : Option String :=
  let l0 := pyStrip line
  if l0 = "" || pyStartsWith l0 "<!--" then none
  else
    let l1 := subHeader l0
    let l2 := subListMarker l1
    let l3 := subNumMarker l2
    let l4 := subQuoteMarker l3
    if pyStartsWith l4 ⟨[btick, btick, btick]⟩ then none
    else
      let l5 : String := ⟨subPair2 '*' l4.toList⟩
      let l6 : String := ⟨subPair1 '*' l5.toList⟩
      let l7 : String := ⟨subPair1 btick l6.toList⟩
      if l7 = "" then none else some l7

/-- `TextDiffer._extract_text_from_markdown`. -/
def extract_text_from_markdown (markdown : String) : List String :=
  (pySplitChar '\n' markdown).filterMap stripMarkdownLine

/-- The lower-cased word set of `TextDiffer._compute_word_overlap`. -/
def wordSet (s : String) : Finset String :=
  (pyWords (pyLower s)).toFinset

/-- A word-overlap score, the exact value `num / den` of the float ratio the
Python computes (`den > 0` for every score the code constructs; the literal
`0.0` is represented as `0 / 1`).  Comparisons are by cross-multiplication,
i.e. exact rational comparison. -/
structure Score where
  num : Nat
  den : Nat
deriving DecidableEq, Repr

/-- The rational value of a score. -/
def Score.toRat (sc : Score) : ℚ := (sc.num : ℚ) / (sc.den : ℚ)

/-- Exact `a > b` on scores. -/
def scoreGt (a b : Score) : Bool := b.num * a.den < a.num * b.den

/-- Exact `a ≥ b` on scores. -/
def scoreGe (a b : Score) : Bool := b.num * a.den ≤ a.num * b.den

theorem scoreGt_iff (a b : Score) (ha : 0 < a.den) (hb : 0 < b.den) :
    scoreGt a b = true ↔ b.toRat < a.toRat := by
  unfold scoreGt Score.toRat
  rw [div_lt_div_iff₀ (by exact_mod_cast hb) (by exact_mod_cast ha)]
  rw [decide_eq_true_iff]
  exact_mod_cast Iff.rfl

theorem scoreGe_iff (a b : Score) (ha : 0 < a.den) (hb : 0 < b.den) :
    scoreGe a b = true ↔ b.toRat ≤ a.toRat := by
  unfold scoreGe Score.toRat
  rw [div_le_div_iff₀ (by exact_mod_cast hb) (by exact_mod_cast ha)]
  rw [decide_eq_true_iff]
  exact_mod_cast Iff.rfl

/-- `TextDiffer._compute_word_overlap`: Jaccard ratio as an exact fraction. -/
def compute_word_overlap (t1 t2 : String) : Score :=
  let w1 := wordSet t1
  let w2 := wordSet t2
  if w1 = ∅ ∨ w2 = ∅ then ⟨0, 1⟩
  else
    let ov := (w1 ∩ w2).card
    let total := (w1 ∪ w2).card
    if 0 < total then ⟨ov, total⟩ else ⟨0, 1⟩

/-- The inner candidate loop of `TextDiffer.compute_changes`: best unused
candidate by strict-improvement scan, `none` below the threshold. -/
def bestMatch (threshold : Score) (used : List Nat) (t : String)
    (cands : List String) : Option (Nat × String) :=
  (cands.enum.foldl
    (fun (acc : Option (Nat × String) × Score) (p : Nat × String) =>
      if p.1 ∈ used then acc
      else
        let ov := compute_word_overlap t p.2
        if scoreGt ov acc.2 && scoreGe ov threshold then (some p, ov) else acc)
    (none, ⟨0, 1⟩)).1

/-- The outer loop of `TextDiffer.compute_changes`, also returning the final
`used_edited` set (as the list of indices added, most recent first). -/
def computeChangesGo (threshold : Score) (cands : List String) :
    List TextNode → List Nat → List TextChange × List Nat
  | [], used => ([], used)
  | node :: ns, used =>
    match bestMatch threshold used node.text cands with
    | some (i, t) =>
      if t ≠ node.text then
        let rest := computeChangesGo threshold cands ns (i :: used)
        (⟨node.path, node.text, t⟩ :: rest.1, rest.2)
      else computeChangesGo threshold cands ns used
    | none => computeChangesGo threshold cands ns used

/-- The default `overlap_threshold` of `TextDiffer.__init__` (`0.3`). -/
def defaultThreshold : Score := ⟨3, 10⟩

/-- `TextDiffer.compute_changes`. -/
def compute_changes (threshold : Score) (originalNodes : List TextNode)
    (editedMarkdown : String) : List TextChange :=
  (computeChangesGo threshold (extract_text_from_markdown editedMarkdown)
    originalNodes []).1

/-! ### `ADFTextExtractor.apply_text_changes` / `_apply_change`

Navigation follows `_apply_change`: digit path segments index into the current
Python value (lists by position, raising `IndexError` when out of range;
dicts and scalars raising a `TypeError`/`KeyError`), other segments look up
dictionary keys (raising `KeyError` when absent).  Every raised exception is
collapsed to `Except.error ()`, which aborts the whole
`apply_text_changes` loop exactly as a propagating Python exception does. -/

/-- Python `part.isdigit() and int(part)` for a path segment. -/
def parseDigits (p : String) : Option Nat :=
  if p ≠ "" ∧ p.toList.all Char.isDigit then
    some (p.toList.foldl (fun acc c => acc * 10 + (c.toNat - 48)) 0)
  else none

/-- The Python value currently addressed during `_apply_change` navigation:
a node dict, a content list, a string, an attrs dict, or an integer. -/
inductive Cursor where
  | cnode (n : Node)
  | clist (l : List Node)
  | cstr (s : String)
  | cattrs (a : Attrs)
  | cint (k : Int)
deriving DecidableEq

/-- One navigation step `current = current[part]`. -/
def getChild (cur : Cursor) (part : String) : Except Unit Cursor :=
  match parseDigits part with
  | some d =>
    match cur with
    | .clist l =>
      match l.get? d with
      | some n => .ok (.cnode n)
      | none => .error ()
    | .cstr s =>
      match s.toList.get? d with
      | some c => .ok (.cstr ⟨[c]⟩)
      | none => .error ()
    | _ => .error ()
  | none =>
    match cur with
    | .cnode n =>
      if part = "content" then
        match n.content with
        | some l => .ok (.clist l)
        | none => .error ()
      else if part = "text" then
        match n.text with
        | some s => .ok (.cstr s)
        | none => .error ()
      else if part = "type" then
        match n.ntype with
        | some s => .ok (.cstr s)
        | none => .error ()
      else if part = "attrs" then .ok (.cattrs n.attrs)
      else .error ()
    | .cattrs a =>
      match attrsGet a part with
      | some (.s v) => .ok (.cstr v)
      | some (.n k) => .ok (.cint k)
      | none => .error ()
    | _ => .error ()

/-- Rebuild a parent cursor after its child at `part` was updated (this is
what Python's in-place aliasing does implicitly).  Mismatched shapes return
the parent unchanged; they only arise on no-op branches. -/
def setChild (cur : Cursor) (part : String) (child : Cursor) : Cursor :=
  match parseDigits part with
  | some d =>
    match cur, child with
    | .clist l, .cnode n => .clist (l.set d n)
    | _, _ => cur
  | none =>
    match cur with
    | .cnode (.mk nt na nc nx) =>
      if part = "content" then
        match child with
        | .clist l => .cnode (.mk nt na (some l) nx)
        | _ => cur
      else if part = "text" then
        match child with
        | .cstr s => .cnode (.mk nt na nc (some s))
        | _ => cur
      else if part = "type" then
        match child with
        | .cstr s => .cnode (.mk (some s) na nc nx)
        | _ => cur
      else if part = "attrs" then
        match child with
        | .cattrs a => .cnode (.mk nt a nc nx)
        | _ => cur
      else cur
    | _ => cur

/-- Python `attrs[key] = value` (overwrite or add). -/
def attrsSet (a : Attrs) (key : String) (v : AttrVal) : Attrs :=
  if attrsHasKey a key then
    a.map (fun p => if p.1 = key then (key, v) else p)
  else a ++ [(key, v)]

/-- The final `if last_part == "text": current["text"] = change.new_text`. -/
def setLast (cur : Cursor) (lastPart : String) (newText : String) :
    Except Unit Cursor :=
  if lastPart = "text" then
    match cur with
    | .cnode (.mk nt na nc _) => .ok (.cnode (.mk nt na nc (some newText)))
    | .cattrs a => .ok (.cattrs (attrsSet a "text" (.s newText)))
    | _ => .error ()
  else .ok cur

/-- Navigate the path segments and perform the final assignment, rebuilding
the spine (the functional image of Python's in-place mutation). -/
def applyParts (cur : Cursor) (parts : List String) (newText : String) :
    Except Unit Cursor :=
  match parts with
  | [] => .ok cur
  | [last] => setLast cur last newText
  | part :: rest =>
    match getChild cur part with
    | .error e => .error e
    | .ok child =>
      match applyParts child rest newText with
      | .error e => .error e
      | .ok child2 => .ok (setChild cur part child2)

/-- `ADFTextExtractor._apply_change`. -/
def apply_change (adf : Node) (change : TextChange) : Except Unit Node := do
  let res ← applyParts (.cnode adf) (pySplitChar '.' change.path) change.new_text
  match res with
  | .cnode n => pure n
  | _ => pure adf

/-- `ADFTextExtractor.apply_text_changes`: deep-copies the input tree, then
applies each change in order; a raised exception aborts the whole call. -/
def apply_text_changes (adf : Node) (changes : List TextChange) :
    Except Unit Node :=
  let result := adf
  changes.foldlM (fun acc c => apply_change acc c) result

/-- `apply_text_changes` with the caller's own tree threaded as explicit
state: the first component is the caller's tree after the call (the
mutations hit the deep copy, never the caller's object), the second the
returned value or propagated exception. -/
def apply_text_changes_st (adf : Node) (changes : List TextChange) :
    Node × Except Unit Node :=
  (adf, apply_text_changes adf changes)

/-! ### `confluence_adf_utils.find_heading_index` and
`insert_section.insert_section` -/

/-- The concatenated text of the direct `text` children of a heading node
(the inner loop of `find_heading_index`). -/
def headingFullText (n : Node) : String :=
  ((n.content.getD []).map
    (fun c => if c.ntype = some "text" then c.text.getD "" else "")).foldl
    (· ++ ·) ""

/-- `find_heading_index`: first top-level heading whose concatenated text
contains the query as a substring. -/
def find_heading_index (content : List Node) (headingText : String) :
    Option Nat :=
  go content 0
where
  go : List Node → Nat → Option Nat
    | [], _ => none
    | n :: rest, i =>
      if n.ntype = some "heading" && strContains (headingFullText n) headingText
      then some i
      else go rest (i + 1)

/-- The `for i in range(heading_idx + 1, len(content))` loop of
`insert_section`: index of the first later sibling heading whose level is
`≤ targetLevel`, or `len(content)` when the loop's `else` branch runs. -/
def findNextSectionIdx (content : List Node) (headingIdx : Nat)
    (targetLevel : Int) : Nat :=
  go (content.drop (headingIdx + 1)) (headingIdx + 1)
where
  go : List Node → Nat → Nat
    | [], _ => content.length
    | node :: rest, i =>
      if node.ntype = some "heading" ∧ attrsLevel node.attrs ≤ targetLevel
      then i
      else go rest (i + 1)

/-- Python `list.insert(idx, a)` (clamps `idx` to the list length). -/
def pyInsert (l : List Node) (idx : Nat) (a : Node) : List Node :=
  l.take idx ++ a :: l.drop idx

/-- The heading node built by `insert_section` (`localId` passed in for the
`os.urandom` suffix). -/
def newHeadingNode (newHeadingText : String) (level : Int) (localId : String) :
    Node :=
  .mk (some "heading") [("level", .n level), ("localId", .s localId)]
    (some [.mk (some "text") [] none (some newHeadingText)]) none

/-- The paragraph node built by `insert_section`. -/
def newParagraphNode (contentText : String) (localId : String) : Node :=
  .mk (some "paragraph") [("localId", .s localId)]
    (some [.mk (some "text") [] none (some contentText)]) none

/-- `insert_section.insert_section`.  Returns `none` when the Python
function returns `False` (heading not found), otherwise the tree after the
in-place insertion.  When the tree has no `content` key, Python mutates the
orphan default list, so the tree is returned unchanged. -/
def insert_section (adf : Node) (afterHeading : Option String)
    (newHeadingText : String) (level : Int) (contentText : Option String)
    (idHeading idPara : String) : Option Node :=
  let content := adf.content.getD []
  let insertIdx? : Option Nat :=
    match afterHeading with
    | some ah =>
      match find_heading_index content ah with
      | none => none
      | some headingIdx =>
        let targetLevel : Int :=
          match content.get? headingIdx with
          | some n =>
            if n.ntype = some "heading" then attrsLevel n.attrs else 1
          | none => 1
        some (findNextSectionIdx content headingIdx targetLevel)
    | none => some content.length
  match insertIdx? with
  | none => none
  | some insertIdx =>
    let content1 := pyInsert content insertIdx (newHeadingNode newHeadingText level idHeading)
    let content2 :=
      match contentText with
      | some ct => pyInsert content1 (insertIdx + 1) (newParagraphNode ct idPara)
      | none => content1
    match adf with
    | .mk nt na nc nx =>
      match nc with
      | some _ => some (.mk nt na (some content2) nx)
      | none => some (.mk nt na none nx)

/-! ### `BackupManager.create_backup` / `_cleanup_old_backups`

The per-page backup directory is modelled as the list of backup file
timestamps; `create_backup` writes the new file and then prunes the sorted
(descending) listing beyond the retention limit. -/

/-- Lexicographic (code-point) string comparison, Python `a <= b`. -/
def strLe (a b : String) : Bool :=
  go a.toList b.toList
where
  go : List Char → List Char → Bool
    | [], _ => true
    | _ :: _, [] => false
    | x :: xs, y :: ys =>
      if x < y then true else if y < x then false else go xs ys

/-- Stable descending insertion into a descending-sorted list: a new
element goes after all existing elements that are `≥` it. -/
def insertDesc (x : String) : List String → List String
  | [] => [x]
  | y :: ys => if strLe x y then y :: insertDesc x ys else x :: y :: ys

/-- `sorted(backups, reverse=True)`: stable descending lexicographic sort
(insertion sort, extensionally the Python `sorted` with `reverse=True`). -/
def sortDescStr (l : List String) : List String :=
  l.foldl (fun acc x => insertDesc x acc) []

/-- `BackupManager.create_backup` followed by `_cleanup_old_backups`:
returns (remaining backups, deleted backups). -/
def create_backup (retentionLimit : Nat) (existing : List String)
    (timestamp : String) : List String × List String :=
  let files := timestamp :: existing
  let backups := sortDescStr files
  (backups.take retentionLimit, backups.drop retentionLimit)


/-! ### Concrete test fixtures -/

/-- A plain text leaf. -/
def textN (t : String) : Node := .mk (some "text") [] none (some t)

/-- A plain paragraph with the given children. -/
def paraN (ts : List Node) : Node := .mk (some "paragraph") [] (some ts) none

/-- A plain heading of the given level with one text leaf. -/
def headN (lvl : Int) (t : String) : Node :=
  .mk (some "heading") [("level", .n lvl)] (some [textN t]) none

/-- A document root with the given top-level children. -/
def docN (items : List Node) : Node := .mk (some "doc") [] (some items) none

/-- The three-block tree of the end-to-end `insert_section` scenario. -/
def scenarioTree : Node :=
  docN [headN 1 "Overview", paraN [textN "intro"], headN 2 "Risks"]

/-- A paragraph whose two text leaves render as one markdown line. -/
def twoLeafTree : Node := docN [paraN [textN "a ", textN "a"]]

/-- A one-paragraph tree used for the patcher claims. -/
def helloTree : Node := docN [paraN [textN "hello"]]

/-! ### Claim C2: the end-to-end `insert_section` scenario -/

/-- C2 counterexample: on the scenario tree, `insert_section` after
"Overview" (level 1) finds no later heading of level ≤ 1, so the `for` loop
falls through to its `else` and the new section lands at the END of the
top-level children — after "Risks", not between "Overview" and "Risks" as
the claim states. -/
theorem C2_counterexample :
    insert_section scenarioTree (some "Overview") "Scope" 2 (some "in scope")
        "h1" "p1" =
      some (docN [headN 1 "Overview", paraN [textN "intro"], headN 2 "Risks",
        newHeadingNode "Scope" 2 "h1", newParagraphNode "in scope" "p1"]) ∧
    (docN [headN 1 "Overview", paraN [textN "intro"], headN 2 "Risks",
        newHeadingNode "Scope" 2 "h1", newParagraphNode "in scope" "p1"]).content ≠
      some [headN 1 "Overview", newHeadingNode "Scope" 2 "h1",
        newParagraphNode "in scope" "p1", paraN [textN "intro"], headN 2 "Risks"] := by
  constructor
  · decide
  · decide

/-- C2 amended: on the scenario tree, `insert_section(after="Overview",
new_heading="Scope", level=2, content="in scope")` appends the new heading
and paragraph at the end of the top-level children (after "Risks"), because
"Risks" has level 2, which is not ≤ the anchor's level 1. -/
theorem C2_amended_insert_at_end :
    insert_section scenarioTree (some "Overview") "Scope" 2 (some "in scope")
        "h1" "p1" =
      some (docN [headN 1 "Overview", paraN [textN "intro"], headN 2 "Risks",
        newHeadingNode "Scope" 2 "h1", newParagraphNode "in scope" "p1"]) := by
  decide

/-! ### Claim C7: `find_heading_index` -/

/-- Whether a node is a heading whose concatenated text contains the query. -/
def headingHit (q : String) (n : Node) : Bool :=
  n.ntype = some "heading" && strContains (headingFullText n) q

theorem fhi_go_hit (q : String) :
    ∀ (l : List Node) (base j : Nat) (n : Node),
      l.get? j = some n → headingHit q n = true →
      (∀ k, k < j → ∀ m, l.get? k = some m → headingHit q m = false) →
      find_heading_index.go q l base = some (base + j) := by
  intro l
  induction l with
  | nil => intro base j n hj; simp at hj
  | cons x xs ih =>
    intro base j n hj hhit hmin
    match j, hj with
    | 0, hj =>
      simp only [List.get?_cons_zero, Option.some.injEq] at hj
      subst hj
      unfold headingHit at hhit
      simp only [find_heading_index.go, hhit, if_true]
      simp
    | (j' + 1), hj =>
      simp only [List.get?_cons_succ] at hj
      have hx : headingHit q x = false := hmin 0 (Nat.succ_pos j') x rfl
      unfold headingHit at hx
      simp only [find_heading_index.go, hx, Bool.false_eq_true, if_false]
      have := ih (base + 1) j' n hj hhit
        (fun k hk m hm => hmin (k + 1) (by omega) m (by simpa using hm))
      rw [this]
      congr 1
      omega

theorem fhi_go_none (q : String) :
    ∀ (l : List Node) (base : Nat),
      (∀ k m, l.get? k = some m → headingHit q m = false) →
      find_heading_index.go q l base = none := by
  intro l
  induction l with
  | nil => intro base _; simp [find_heading_index.go]
  | cons x xs ih =>
    intro base hall
    have hx : headingHit q x = false := hall 0 x rfl
    unfold headingHit at hx
    simp only [find_heading_index.go, hx, Bool.false_eq_true, if_false]
    exact ih (base + 1) (fun k m hm => hall (k + 1) m (by simpa using hm))

/-- C7 counterexample: with top-level headings "ab" then "b", the query
"b" occurs verbatim as the concatenated text of the heading at index 1, yet
`find_heading_index` returns index 0 — the earlier heading that merely
CONTAINS "b" as a substring — so it does return the index of another
heading. -/
theorem C7_counterexample :
    headingFullText (headN 1 "b") = "b" ∧
    [headN 1 "ab", headN 1 "b"].get? 1 = some (headN 1 "b") ∧
    find_heading_index [headN 1 "ab", headN 1 "b"] "b" = some 0 ∧
    find_heading_index [headN 1 "ab", headN 1 "b"] "b" ≠ some 1 := by
  refine ⟨by decide, by decide, by decide, by decide⟩

/-- C7 amended: `find_heading_index` returns the index of the FIRST
top-level heading whose concatenated leaf text contains the query as a
substring (case-sensitive); in particular it returns the index of a heading
whose text equals the query verbatim provided no earlier top-level heading
contains the query, and it returns `none` when no top-level heading
contains the query.  The scan is non-recursive by construction. -/
theorem C7_amended :
    (∀ (content : List Node) (q : String) (j : Nat) (n : Node),
      content.get? j = some n → headingHit q n = true →
      (∀ k, k < j → ∀ m, content.get? k = some m → headingHit q m = false) →
      find_heading_index content q = some j) ∧
    (∀ (content : List Node) (q : String),
      (∀ k m, content.get? k = some m → headingHit q m = false) →
      find_heading_index content q = none) := by
  constructor
  · intro content q j n hj hhit hmin
    have := fhi_go_hit q content 0 j n hj hhit hmin
    simpa [find_heading_index] using this
  · intro content q hall
    simpa [find_heading_index] using fhi_go_none q content 0 hall

/-- C7 amended, witness: on `[heading "ab", heading "Intro"]` the query
"Intro" is the verbatim text of the heading at index 1 and no earlier
heading contains it, so the index 1 is returned; and a query contained in
no heading yields `none`. -/
theorem C7_amended_witness :
    find_heading_index [headN 1 "ab", headN 1 "Intro"] "Intro" = some 1 ∧
    find_heading_index [headN 1 "ab", headN 1 "Intro"] "zzz" = none := by
  constructor
  · refine C7_amended.1 [headN 1 "ab", headN 1 "Intro"] "Intro" 1 (headN 1 "Intro")
      (by decide) (by decide) ?_
    intro k hk m hm
    match k, hk with
    | 0, _ =>
      simp only [List.get?_cons_zero, Option.some.injEq] at hm
      subst hm
      decide
  · refine C7_amended.2 [headN 1 "ab", headN 1 "Intro"] "zzz" ?_
    intro k m hm
    match k, hm with
    | 0, hm =>
      simp only [List.get?_cons_zero, Option.some.injEq] at hm
      subst hm
      decide
    | 1, hm =>
      simp only [List.get?_cons_succ, List.get?_cons_zero, Option.some.injEq] at hm
      subst hm
      decide
    | (k + 2), hm =>
      simp at hm

/-! ### Claim C6: patch entries with unresolvable paths -/

/-- Navigation through a sequence of path segments (`parts[:-1]` of
`_apply_change`). -/
def navPath (cur : Cursor) : List String → Except Unit Cursor
  | [] => .ok cur
  | p :: rest =>
    match getChild cur p with
    | .ok c => navPath c rest
    | .error e => .error e

theorem list_set_get? : ∀ (l : List Node) (d : Nat) (n : Node),
    l.get? d = some n → l.set d n = l := by
  intro l
  induction l with
  | nil => intro d n h; simp at h
  | cons x xs ih =>
    intro d n h
    match d, h with
    | 0, h =>
      simp only [List.get?_cons_zero, Option.some.injEq] at h
      subst h
      simp
    | (d + 1), h =>
      simp only [List.get?_cons_succ] at h
      simp [ih d n h]

/-- Rebuilding with the very child that navigation returned is a no-op
(the functional counterpart of Python aliasing). -/
theorem setChild_getChild (cur : Cursor) (p : String) (child : Cursor)
    (h : getChild cur p = .ok child) : setChild cur p child = cur := by
  rcases hd : parseDigits p with _ | d
  · cases cur with
    | cnode nd =>
      cases nd with
      | mk nt na nc nx =>
        simp only [getChild, hd, Node.content, Node.text, Node.ntype, Node.attrs] at h
        by_cases hc : p = "content"
        · subst hc
          cases nc with
          | some l =>
            simp at h
            subst h
            simp [setChild, hd]
          | none => simp at h
        · by_cases htx : p = "text"
          · subst htx
            cases nx with
            | some sx =>
              simp at h
              subst h
              simp [setChild, hd]
            | none => simp at h
          · by_cases hty : p = "type"
            · subst hty
              cases nt with
              | some st =>
                simp at h
                subst h
                simp [setChild, hd]
              | none => simp at h
            · by_cases hat : p = "attrs"
              · subst hat
                simp at h
                subst h
                simp [setChild, hd]
              · simp [hc, htx, hty, hat] at h
    | clist l => simp only [getChild, hd] at h; simp at h
    | cstr s => simp only [getChild, hd] at h; simp at h
    | cattrs a =>
      simp only [getChild, hd] at h
      cases ha : attrsGet a p with
      | some v =>
        rw [ha] at h
        cases v with
        | s vs =>
          simp at h
          subst h
          simp [setChild, hd]
        | n vk =>
          simp at h
          subst h
          simp [setChild, hd]
      | none => rw [ha] at h; simp at h
    | cint k => simp only [getChild, hd] at h; simp at h
  · cases cur with
    | cnode nd => simp only [getChild, hd] at h; simp at h
    | clist l =>
      simp only [getChild, hd] at h
      cases hl : l.get? d with
      | some n =>
        rw [hl] at h
        simp at h
        subst h
        simp only [setChild, hd]
        rw [list_set_get? l d n hl]
      | none => rw [hl] at h; simp at h
    | cstr s =>
      simp only [getChild, hd] at h
      cases hs : s.toList.get? d with
      | some c =>
        rw [hs] at h
        simp at h
        subst h
        simp [setChild, hd]
      | none => rw [hs] at h; simp at h
    | cattrs a => simp only [getChild, hd] at h; simp at h
    | cint k => simp only [getChild, hd] at h; simp at h

/-- Unfolding lemmas for `applyParts`. -/
theorem applyParts_one (cur : Cursor) (last new : String) :
    applyParts cur [last] new = setLast cur last new := rfl

theorem applyParts_step_ok (cur child : Cursor) (p q : String)
    (rest : List String) (new : String) (hg : getChild cur p = .ok child) :
    applyParts cur (p :: q :: rest) new =
      match applyParts child (q :: rest) new with
      | .error e => .error e
      | .ok child2 => .ok (setChild cur p child2) := by
  rw [show applyParts cur (p :: q :: rest) new =
      (match getChild cur p with
       | .error e => .error e
       | .ok child =>
         match applyParts child (q :: rest) new with
         | .error e => .error e
         | .ok child2 => .ok (setChild cur p child2)) from rfl, hg]

theorem applyParts_step_err (cur : Cursor) (p q : String)
    (rest : List String) (new : String) (hg : getChild cur p = .error ()) :
    applyParts cur (p :: q :: rest) new = .error () := by
  rw [show applyParts cur (p :: q :: rest) new =
      (match getChild cur p with
       | .error e => .error e
       | .ok child =>
         match applyParts child (q :: rest) new with
         | .error e => .error e
         | .ok child2 => .ok (setChild cur p child2)) from rfl, hg]

/-- A successfully navigated path whose final segment is not `"text"` makes
`applyParts` a no-op. -/
theorem applyParts_noop :
    ∀ (ps : List String) (cur curEnd : Cursor) (last newText : String),
      last ≠ "text" → navPath cur ps = .ok curEnd →
      applyParts cur (ps ++ [last]) newText = .ok cur := by
  intro ps
  induction ps with
  | nil =>
    intro cur curEnd last newText hl _
    simp only [List.nil_append, applyParts_one, setLast]
    rw [if_neg hl]
  | cons p ps2 ih =>
    intro cur curEnd last newText hl hnav
    simp only [navPath] at hnav
    match hg : getChild cur p with
    | .ok c =>
      rw [hg] at hnav
      have hrec := ih c curEnd last newText hl hnav
      match ps2, hrec with
      | [], hrec =>
        show applyParts cur (p :: [last]) newText = .ok cur
        rw [applyParts_step_ok cur c p last [] newText hg,
          show applyParts c [last] newText = .ok c from hrec]
        simp [setChild_getChild cur p c hg]
      | q :: qs, hrec =>
        show applyParts cur (p :: q :: (qs ++ [last])) newText = .ok cur
        rw [applyParts_step_ok cur c p q (qs ++ [last]) newText hg,
          show applyParts c (q :: (qs ++ [last])) newText = .ok c from hrec]
        simp [setChild_getChild cur p c hg]
    | .error e =>
      rw [hg] at hnav
      exact absurd hnav (by simp)

/-- A failed navigation makes `applyParts` raise. -/
theorem applyParts_err :
    ∀ (ps : List String) (cur : Cursor) (last newText : String),
      navPath cur ps = .error () →
      applyParts cur (ps ++ [last]) newText = .error () := by
  intro ps
  induction ps with
  | nil => intro cur last newText h; simp [navPath] at h
  | cons p ps2 ih =>
    intro cur last newText hnav
    simp only [navPath] at hnav
    match hg : getChild cur p with
    | .ok c =>
      rw [hg] at hnav
      have hrec := ih c last newText hnav
      match ps2, hrec with
      | [], hrec => simp [navPath] at hnav
      | q :: qs, hrec =>
        show applyParts cur (p :: q :: (qs ++ [last])) newText = .error ()
        rw [applyParts_step_ok cur c p q (qs ++ [last]) newText hg,
          show applyParts c (q :: (qs ++ [last])) newText = .error () from hrec]
    | .error e =>
      rw [hg] at hnav
      cases e
      cases ps2 with
      | nil =>
        show applyParts cur (p :: [last]) newText = .error ()
        exact applyParts_step_err cur p last [] newText hg
      | cons q qs =>
        show applyParts cur (p :: q :: (qs ++ [last])) newText = .error ()
        exact applyParts_step_err cur p q (qs ++ [last]) newText hg

/-- C6 counterexample: an entry whose path does not resolve (index 9 out of
range) makes `apply_text_changes` raise `IndexError`, aborting the whole
call — the valid second entry is never applied and no tree is returned,
where the claim demands a silent per-entry no-op that continues. -/
theorem C6_counterexample :
    apply_text_changes helloTree [⟨"content.9.text", "a", "b"⟩,
      ⟨"content.0.content.0.text", "hello", "world"⟩] = .error () ∧
    apply_text_changes helloTree [⟨"content.0.content.0.text", "hello", "world"⟩] =
      .ok (docN [paraN [textN "world"]]) := by
  exact ⟨by decide, by decide⟩

/-- C6 amended: an entry whose intermediate path segments all resolve but
whose final segment is not `"text"` is a silent no-op — the tree is
unaffected by it and the remaining entries are still applied.  An entry
whose intermediate segments fail to resolve, however, raises an error that
aborts the entire `apply_text_changes` call (no tree is returned). -/
theorem C6_amended :
    (∀ (adf : Node) (c : TextChange) (rest : List TextChange)
        (ps : List String) (last : String) (cur : Cursor),
      pySplitChar '.' c.path = ps ++ [last] → last ≠ "text" →
      navPath (.cnode adf) ps = .ok cur →
      apply_change adf c = .ok adf ∧
      apply_text_changes adf (c :: rest) = apply_text_changes adf rest) ∧
    (∀ (adf : Node) (c : TextChange) (rest : List TextChange)
        (ps : List String) (last : String),
      pySplitChar '.' c.path = ps ++ [last] →
      navPath (.cnode adf) ps = .error () →
      apply_text_changes adf (c :: rest) = .error ()) := by
  constructor
  · intro adf c rest ps last cur hsplit hl hnav
    have hch : apply_change adf c = .ok adf := by
      unfold apply_change
      rw [hsplit, applyParts_noop ps (.cnode adf) cur last c.new_text hl hnav]
      rfl
    refine ⟨hch, ?_⟩
    simp only [apply_text_changes, List.foldlM_cons]
    rw [hch]
    rfl
  · intro adf c rest ps last hsplit hnav
    have hch : apply_change adf c = .error () := by
      unfold apply_change
      rw [hsplit, applyParts_err ps (.cnode adf) last c.new_text hnav]
      rfl
    simp only [apply_text_changes, List.foldlM_cons]
    rw [hch]
    rfl

/-- C6 amended, witness: on the one-paragraph tree, an entry addressed at
`content.0.type` is silently skipped and the remaining entry applied, while
an entry addressed through the out-of-range index 9 aborts the call. -/
theorem C6_amended_witness :
    (apply_change helloTree ⟨"content.0.type", "paragraph", "x"⟩ = .ok helloTree ∧
      apply_text_changes helloTree [⟨"content.0.type", "paragraph", "x"⟩,
        ⟨"content.0.content.0.text", "hello", "world"⟩] =
      apply_text_changes helloTree [⟨"content.0.content.0.text", "hello", "world"⟩]) ∧
    apply_text_changes helloTree [⟨"content.9.foo", "a", "b"⟩] = .error () := by
  constructor
  · exact C6_amended.1 helloTree ⟨"content.0.type", "paragraph", "x"⟩
      [⟨"content.0.content.0.text", "hello", "world"⟩]
      ["content", "0"] "type" (.cnode (paraN [textN "hello"]))
      (by decide) (by decide) (by decide)
  · exact C6_amended.2 helloTree ⟨"content.9.foo", "a", "b"⟩ []
      ["content", "9"] "foo" (by decide) (by decide)

/-! ### Claim C8: `apply_text_changes` never mutates the caller's tree -/

/-- C8: with the caller's tree threaded as explicit state, the tree the
caller holds after `apply_text_changes` is the tree it passed in — the
deep copy receives all mutations — and the returned value is exactly the
result of patching the copy; with no changes the returned tree is the
(copied) input itself. -/
theorem C8_no_caller_mutation :
    ∀ (adf : Node) (changes : List TextChange),
      (apply_text_changes_st adf changes).1 = adf ∧
      (apply_text_changes_st adf changes).2 = apply_text_changes adf changes ∧
      apply_text_changes adf [] = .ok adf := by
  intro adf changes
  exact ⟨rfl, rfl, rfl⟩

/-! ### Claim C9: backup retention -/

theorem strLeGo_total : ∀ a b, strLe.go a b = true ∨ strLe.go b a = true := by
  intro a
  induction a with
  | nil => intro b; left; simp [strLe.go]
  | cons x xs ih =>
    intro b
    cases b with
    | nil => right; simp [strLe.go]
    | cons y ys =>
      rcases lt_trichotomy x y with h | h | h
      · left; simp [strLe.go, h]
      · subst h
        rcases ih ys with h2 | h2
        · left; simp [strLe.go, lt_irrefl, h2]
        · right; simp [strLe.go, lt_irrefl, h2]
      · right; simp [strLe.go, h]

theorem strLeGo_trans :
    ∀ a b c, strLe.go a b = true → strLe.go b c = true → strLe.go a c = true := by
  intro a
  induction a with
  | nil => intro b c _ _; simp [strLe.go]
  | cons x xs ih =>
    intro b c hab hbc
    cases b with
    | nil => simp [strLe.go] at hab
    | cons y ys =>
      cases c with
      | nil => simp [strLe.go] at hbc
      | cons z zs =>
        simp only [strLe.go] at hab hbc ⊢
        rcases lt_trichotomy x y with hxy | hxy | hxy
        · rcases lt_trichotomy y z with hyz | hyz | hyz
          · simp [lt_trans hxy hyz]
          · subst hyz; simp [hxy]
          · rw [if_neg (lt_asymm hyz), if_pos hyz] at hbc
            simp at hbc
        · subst hxy
          rw [if_neg (lt_irrefl x), if_neg (lt_irrefl x)] at hab
          rcases lt_trichotomy x z with hxz | hxz | hxz
          · simp [hxz]
          · subst hxz
            rw [if_neg (lt_irrefl x), if_neg (lt_irrefl x)] at hbc ⊢
            exact ih ys zs hab hbc
          · rw [if_neg (lt_asymm hxz), if_pos hxz] at hbc
            simp at hbc
        · rw [if_neg (lt_asymm hxy), if_pos hxy] at hab
          simp at hab

/-- Elements of a descending insertion. -/
theorem insertDesc_mem (x : String) :
    ∀ l y, y ∈ insertDesc x l ↔ y = x ∨ y ∈ l := by
  intro l
  induction l with
  | nil => intro y; simp [insertDesc]
  | cons z zs ih =>
    intro y
    simp only [insertDesc]
    by_cases h : strLe x z = true
    · rw [if_pos h]
      simp only [List.mem_cons, ih y]
      tauto
    · rw [if_neg h]
      simp [List.mem_cons]

/-- `insertDesc` preserves descending sortedness. -/
theorem insertDesc_pairwise (x : String) :
    ∀ l, l.Pairwise (fun a b => strLe b a = true) →
      (insertDesc x l).Pairwise (fun a b => strLe b a = true) := by
  intro l
  induction l with
  | nil => intro _; simp [insertDesc]
  | cons z zs ih =>
    intro hp
    rw [List.pairwise_cons] at hp
    obtain ⟨hz, hzs⟩ := hp
    simp only [insertDesc]
    by_cases h : strLe x z = true
    · rw [if_pos h]
      rw [List.pairwise_cons]
      constructor
      · intro y hy
        rw [insertDesc_mem x zs y] at hy
        rcases hy with rfl | hy
        · exact h
        · exact hz y hy
      · exact ih hzs
    · rw [if_neg h]
      rw [List.pairwise_cons]
      constructor
      · intro y hy
        rcases List.mem_cons.mp hy with rfl | hy
        · rcases strLeGo_total x.toList y.toList with ht | ht
          · exact absurd ht h
          · exact ht
        · have hzy := hz y hy
          rcases strLeGo_total x.toList z.toList with ht | ht
          · exact absurd ht h
          · exact strLeGo_trans y.toList z.toList x.toList hzy ht
      · rw [List.pairwise_cons]
        exact ⟨hz, hzs⟩

/-- `sortDescStr` always yields a descending-sorted list. -/
theorem sortDescStr_pairwise (l : List String) :
    (sortDescStr l).Pairwise (fun a b => strLe b a = true) := by
  suffices h : ∀ (l : List String) (acc : List String),
      acc.Pairwise (fun a b => strLe b a = true) →
      (l.foldl (fun acc x => insertDesc x acc) acc).Pairwise
        (fun a b => strLe b a = true) by
    exact h l [] (by simp)
  intro l
  induction l with
  | nil => intro acc hacc; simp only [List.foldl_nil]; exact hacc
  | cons x xs ih =>
    intro acc hacc
    simp only [List.foldl_cons]
    exact ih (insertDesc x acc) (insertDesc_pairwise x acc hacc)

/-- C9: after every `create_backup` with retention limit 10 at most 10
backups remain; pruning deletes oldest (lexicographically smallest) first —
every deleted timestamp is ≤ every kept timestamp; and creating 11 backups
in timestamp order starting from an empty directory keeps exactly the 10
most recent, deleting the oldest. -/
theorem C9_backup_retention :
    (∀ (st : List String) (ts : String),
      (create_backup 10 st ts).1.length ≤ 10) ∧
    (∀ (st : List String) (ts d k : String),
      d ∈ (create_backup 10 st ts).2 → k ∈ (create_backup 10 st ts).1 →
      strLe d k = true) ∧
    ["t01", "t02", "t03", "t04", "t05", "t06", "t07", "t08", "t09", "t10",
        "t11"].foldl (fun st ts => (create_backup 10 st ts).1) [] =
      ["t11", "t10", "t09", "t08", "t07", "t06", "t05", "t04", "t03", "t02"] := by
  refine ⟨?_, ?_, by decide⟩
  · intro st ts
    simp only [create_backup]
    exact List.length_take_le 10 (sortDescStr (ts :: st))
  · intro st ts d k hd hk
    have hp := sortDescStr_pairwise (ts :: st)
    have hsplit : sortDescStr (ts :: st) =
        (sortDescStr (ts :: st)).take 10 ++ (sortDescStr (ts :: st)).drop 10 :=
      (List.take_append_drop 10 (sortDescStr (ts :: st))).symm
    rw [hsplit] at hp
    rw [List.pairwise_append] at hp
    exact hp.2.2 k hk d hd

/-- C9 witness: with ten backups present, an eleventh create keeps the ten
most recent and the deleted timestamp is older than every kept one. -/
theorem C9_backup_retention_witness :
    (create_backup 10 ["t01", "t02", "t03", "t04", "t05", "t06", "t07",
        "t08", "t09", "t10"] "t11").1.length ≤ 10 ∧
    strLe "t01" "t11" = true := by
  constructor
  · exact C9_backup_retention.1 ["t01", "t02", "t03", "t04", "t05", "t06",
      "t07", "t08", "t09", "t10"] "t11"
  · exact C9_backup_retention.2.1 ["t01", "t02", "t03", "t04", "t05", "t06",
      "t07", "t08", "t09", "t10"] "t11" "t01" "t11" (by decide) (by decide)

/-! ### Claim C5: marking matched candidates as used -/

theorem bestMatch_foldl_not_used (θ : Score) (used : List Nat) (t : String) :
    ∀ (l : List (Nat × String)) (acc : Option (Nat × String) × Score),
      (∀ j s, acc.1 = some (j, s) → j ∉ used) →
      ∀ j s,
        (l.foldl
          (fun (acc : Option (Nat × String) × Score) (p : Nat × String) =>
            if p.1 ∈ used then acc
            else
              let ov := compute_word_overlap t p.2
              if scoreGt ov acc.2 && scoreGe ov θ then (some p, ov) else acc)
          acc).1 = some (j, s) → j ∉ used := by
  intro l
  induction l with
  | nil => intro acc hacc j s h; exact hacc j s h
  | cons p ps ih =>
    intro acc hacc j s h
    rw [List.foldl_cons] at h
    refine ih _ ?_ j s h
    intro j' s' hstep
    by_cases hp : p.1 ∈ used
    · rw [if_pos hp] at hstep
      exact hacc j' s' hstep
    · rw [if_neg hp] at hstep
      by_cases hup :
          (scoreGt (compute_word_overlap t p.2) acc.2 &&
            scoreGe (compute_word_overlap t p.2) θ) = true
      · simp only [hup, if_true] at hstep
        simp only [Option.some.injEq] at hstep
        have : p.1 = j' := congrArg Prod.fst hstep
        rw [← this]
        exact hp
      · simp only [Bool.not_eq_true] at hup
        simp only [hup, Bool.false_eq_true, if_false] at hstep
        exact hacc j' s' hstep

/-- A used candidate index is never selected again by `bestMatch`. -/
theorem bestMatch_not_used (θ : Score) (used : List Nat) (t : String)
    (cands : List String) (i : Nat) (s : String)
    (h : bestMatch θ used t cands = some (i, s)) : i ∉ used := by
  unfold bestMatch at h
  exact bestMatch_foldl_not_used θ used t cands.enum (none, ⟨0, 1⟩)
    (by intro j s' hj; simp at hj) i s h

/-- C5 counterexample: with original leaves `"a", "a"` and the unedited
one-line markdown `"a"`, the single candidate IS matched to the first leaf
(`bestMatch` returns it), but because the match is textually identical no
`TextChange` is emitted and the candidate is NOT added to `used_edited` —
the final used set is empty — so the very same candidate is matched again
when the second leaf is processed, contrary to the claim. -/
theorem C5_counterexample :
    bestMatch defaultThreshold [] "a" ["a"] = some (0, "a") ∧
    (computeChangesGo defaultThreshold ["a"] [⟨"p", "a"⟩] []).2 = [] ∧
    computeChangesGo defaultThreshold ["a"] [⟨"p", "a"⟩, ⟨"q", "a"⟩] [] =
      ([], []) := by
  refine ⟨by decide, by decide, by decide⟩

/-- C5 amended: a candidate is marked used exactly when a `TextChange` is
emitted for it: if the best match differs from the leaf's text the change
is recorded and the candidate index joins the used set threaded to all
later leaves; if the best match is textually identical, no change is
emitted and the used set is left unchanged (the candidate stays available
to later leaves); and `bestMatch` never selects an index already in the
used set. -/
theorem C5_amended :
    (∀ (θ : Score) (cands : List String) (ns : List TextNode)
        (used : List Nat) (nd : TextNode) (i : Nat) (t : String),
      bestMatch θ used nd.text cands = some (i, t) → t ≠ nd.text →
      computeChangesGo θ cands (nd :: ns) used =
        (⟨nd.path, nd.text, t⟩ :: (computeChangesGo θ cands ns (i :: used)).1,
          (computeChangesGo θ cands ns (i :: used)).2)) ∧
    (∀ (θ : Score) (cands : List String) (ns : List TextNode)
        (used : List Nat) (nd : TextNode) (i : Nat) (t : String),
      bestMatch θ used nd.text cands = some (i, t) → t = nd.text →
      computeChangesGo θ cands (nd :: ns) used =
        computeChangesGo θ cands ns used) ∧
    (∀ (θ : Score) (used : List Nat) (t : String) (cands : List String)
        (i : Nat) (s : String),
      i ∈ used → bestMatch θ used t cands ≠ some (i, s)) := by
  refine ⟨?_, ?_, ?_⟩
  · intro θ cands ns used nd i t hb hne
    simp only [computeChangesGo, hb]
    rw [if_pos hne]
  · intro θ cands ns used nd i t hb heq
    simp only [computeChangesGo, hb]
    rw [if_neg (by simp [heq])]
  · intro θ used t cands i s hi h
    exact absurd hi (bestMatch_not_used θ used t cands i s h)

/-- C5 amended, witness: an emitted change marks its candidate used; an
identical match leaves the used set unchanged; a used index is never
re-selected. -/
theorem C5_amended_witness :
    computeChangesGo defaultThreshold ["x z"] [⟨"p", "x y"⟩] [] =
      (⟨"p", "x y", "x z"⟩ ::
          (computeChangesGo defaultThreshold ["x z"] [] [0]).1,
        (computeChangesGo defaultThreshold ["x z"] [] [0]).2) ∧
    computeChangesGo defaultThreshold ["a"] [⟨"p", "a"⟩] [] =
      computeChangesGo defaultThreshold ["a"] [] [] ∧
    bestMatch defaultThreshold [0] "a" ["a"] ≠ some (0, "a") := by
  refine ⟨?_, ?_, ?_⟩
  · exact C5_amended.1 defaultThreshold ["x z"] [] [] ⟨"p", "x y"⟩ 0 "x z"
      (by decide) (by decide)
  · exact C5_amended.2.1 defaultThreshold ["a"] [] [] ⟨"p", "a"⟩ 0 "a"
      (by decide) (by decide)
  · exact C5_amended.2.2 defaultThreshold [0] "a" ["a"] 0 "a" (by decide)

/-! ### Claims C4 and C10: safe/advanced extraction and blank leaves -/

mutual
/-- Reference enumeration of the tree's text leaves (the spec's §4.3
description): every text leaf whose literal does not strip to the empty
string, with its path and a flag recording whether the leaf lies inside —
or is itself — a macro/opaque node.  Used solely to compare the two
extraction modes against. -/
def flaggedLeaves (n : Node) (path : String) (insideOpaque : Bool) :
    List (TextNode × Bool) :=
  match n with
  | .mk nt nattrs ncontent ntext =>
    let isMacro := isMacroNode (.mk nt nattrs ncontent ntext)
    (if nt = some "text" then
      (if pyStrip (ntext.getD "") ≠ "" then
        [(⟨textPath path, ntext.getD ""⟩, insideOpaque || isMacro)]
      else [])
     else []) ++
    (match ncontent with
     | some l => flaggedLeavesList l path 0 (isMacro || insideOpaque)
     | none => [])
  termination_by structural n

def flaggedLeavesList (l : List Node) (path : String) (i : Nat)
    (insideOpaque : Bool) : List (TextNode × Bool) :=
  match l with
  | [] => []
  | c :: cs =>
      flaggedLeaves c (childPath path i) insideOpaque ++
      flaggedLeavesList cs path (i + 1) insideOpaque
  termination_by structural l
end

mutual
theorem flaggedLeaves_inside (n : Node) (path : String) :
    ∀ p ∈ flaggedLeaves n path true, p.2 = true := by
  match n with
  | .mk nt nattrs ncontent ntext =>
    intro p hp
    cases ncontent with
    | some l =>
      rw [flaggedLeaves.eq_1] at hp
      rcases List.mem_append.mp hp with h1 | h2
      · split at h1
        · have h3 : p ∈ (if pyStrip (ntext.getD "") ≠ "" then
              [((⟨textPath path, ntext.getD ""⟩ : TextNode), true ||
                isMacroNode (.mk nt nattrs (some l) ntext))] else []) := h1
          split at h3
          · rcases List.mem_singleton.mp h3 with rfl
            simp
          · simp at h3
        · simp at h1
      · rw [show (isMacroNode (.mk nt nattrs (some l) ntext) || true) = true from
          Bool.or_true _] at h2
        exact flaggedLeavesList_inside l path 0 p h2
    | none =>
      rw [flaggedLeaves.eq_2] at hp
      rcases List.mem_append.mp hp with h1 | h2
      · split at h1
        · have h3 : p ∈ (if pyStrip (ntext.getD "") ≠ "" then
              [((⟨textPath path, ntext.getD ""⟩ : TextNode), true ||
                isMacroNode (.mk nt nattrs none ntext))] else []) := h1
          split at h3
          · rcases List.mem_singleton.mp h3 with rfl
            simp
          · simp at h3
        · simp at h1
      · simp at h2
  termination_by sizeOf n

theorem flaggedLeavesList_inside (l : List Node) (path : String) (i : Nat) :
    ∀ p ∈ flaggedLeavesList l path i true, p.2 = true := by
  match l with
  | [] => intro p hp; simp [flaggedLeavesList] at hp
  | c :: cs =>
    intro p hp
    rw [show flaggedLeavesList (c :: cs) path i true =
      flaggedLeaves c (childPath path i) true ++
      flaggedLeavesList cs path (i + 1) true from by rw [flaggedLeavesList]] at hp
    rcases List.mem_append.mp hp with h1 | h2
    · exact flaggedLeaves_inside c (childPath path i) p h1
    · exact flaggedLeavesList_inside cs path (i + 1) p h2
  termination_by sizeOf l
end

/-- Inside an opaque container, nothing survives the safe-mode filter. -/
theorem flaggedLeavesList_inside_filter (l : List Node) (path : String) (i : Nat) :
    ((flaggedLeavesList l path i true).filter (fun p => !p.2)).map Prod.fst = [] := by
  rw [List.map_eq_nil_iff, List.filter_eq_nil_iff]
  intro p hp
  simp [flaggedLeavesList_inside l path i p hp]

/-- Head-part equality for safe mode at a non-macro node. -/
theorem safe_head_eq (nt ntext : Option String) (path : String) (im : Bool) :
    (if (decide (nt = some "text") && !(im && true)) = true then
        (if pyStrip (ntext.getD "") ≠ "" then
          [(⟨textPath path, ntext.getD ""⟩ : TextNode)] else [])
      else []) =
      ((if nt = some "text" then
          (if pyStrip (ntext.getD "") ≠ "" then
            [((⟨textPath path, ntext.getD ""⟩ : TextNode), im)] else [])
        else ([] : List (TextNode × Bool))).filter
          (fun p => !p.2)).map Prod.fst := by
  by_cases ht : nt = some "text" <;> cases im <;>
    by_cases hstrip : pyStrip (ntext.getD "") ≠ "" <;> simp [ht, hstrip]

/-- Head-part vanishing for safe mode at a macro node. -/
theorem macro_head_eq (nt ntext : Option String) (path : String) :
    ((if nt = some "text" then
        (if pyStrip (ntext.getD "") ≠ "" then
          [((⟨textPath path, ntext.getD ""⟩ : TextNode), true)] else [])
      else ([] : List (TextNode × Bool))).filter
        (fun p => !p.2)).map Prod.fst = [] := by
  by_cases ht : nt = some "text" <;>
    by_cases hstrip : pyStrip (ntext.getD "") ≠ "" <;> simp [ht, hstrip]

/-- Head-part equality for advanced mode. -/
theorem adv_head_eq (nt ntext : Option String) (path : String) (im f : Bool) :
    (if (decide (nt = some "text") && !(im && false)) = true then
        (if pyStrip (ntext.getD "") ≠ "" then
          [(⟨textPath path, ntext.getD ""⟩ : TextNode)] else [])
      else []) =
      ((if nt = some "text" then
          (if pyStrip (ntext.getD "") ≠ "" then
            [((⟨textPath path, ntext.getD ""⟩ : TextNode), f)] else [])
        else ([] : List (TextNode × Bool))).map Prod.fst) := by
  by_cases ht : nt = some "text" <;>
    by_cases hstrip : pyStrip (ntext.getD "") ≠ "" <;> simp [ht, hstrip]

mutual
/-- Safe-mode extraction returns exactly the leaves not flagged opaque. -/
theorem extract_safe_eq (n : Node) (path : String) (im : Bool) :
    extractRec true n path im =
      ((flaggedLeaves n path im).filter (fun p => !p.2)).map Prod.fst := by
  match n with
  | .mk nt nattrs ncontent ntext =>
    by_cases hM : isMacroNode (.mk nt nattrs ncontent ntext) = true
    · cases ncontent with
      | some l =>
        rw [extractRec.eq_1, flaggedLeaves.eq_1,
          if_pos (show (isMacroNode (.mk nt nattrs (some l) ntext) && true) = true
            from by rw [hM]; rfl),
          List.filter_append, List.map_append,
          show (isMacroNode (.mk nt nattrs (some l) ntext) || im) = true from by
            rw [hM]; simp,
          flaggedLeavesList_inside_filter l path 0, List.append_nil,
          show (im || isMacroNode (.mk nt nattrs (some l) ntext)) = true from by
            rw [hM]; simp]
        exact (macro_head_eq nt ntext path).symm
      | none =>
        rw [extractRec.eq_2, flaggedLeaves.eq_2,
          if_pos (show (isMacroNode (.mk nt nattrs none ntext) && true) = true
            from by rw [hM]; rfl),
          List.filter_append, List.map_append,
          show (im || isMacroNode (.mk nt nattrs none ntext)) = true from by
            rw [hM]; simp]
        rw [show ((List.filter (fun p => !p.2)
            ([] : List (TextNode × Bool))).map Prod.fst : List TextNode)
          = [] from rfl, List.append_nil]
        exact (macro_head_eq nt ntext path).symm
    · rw [Bool.not_eq_true] at hM
      cases ncontent with
      | some l =>
        rw [extractRec.eq_1, flaggedLeaves.eq_1,
          if_neg (show ¬ ((isMacroNode (.mk nt nattrs (some l) ntext) && true)
            = true) from by rw [hM]; simp),
          List.filter_append, List.map_append,
          extract_safe_eq_list l path 0
            (isMacroNode (.mk nt nattrs (some l) ntext) || im),
          show (im || isMacroNode (.mk nt nattrs (some l) ntext)) = im from by
            rw [hM]; simp]
        congr 1
        exact safe_head_eq nt ntext path im
      | none =>
        rw [extractRec.eq_2, flaggedLeaves.eq_2,
          if_neg (show ¬ ((isMacroNode (.mk nt nattrs none ntext) && true)
            = true) from by rw [hM]; simp),
          List.filter_append, List.map_append,
          show (im || isMacroNode (.mk nt nattrs none ntext)) = im from by
            rw [hM]; simp]
        rw [show ((List.filter (fun p => !p.2)
            ([] : List (TextNode × Bool))).map Prod.fst : List TextNode)
          = [] from rfl, List.append_nil, List.append_nil]
        exact safe_head_eq nt ntext path im
  termination_by sizeOf n

theorem extract_safe_eq_list (l : List Node) (path : String) (i : Nat)
    (im : Bool) :
    extractRecList true l path i im =
      ((flaggedLeavesList l path i im).filter (fun p => !p.2)).map Prod.fst := by
  match l with
  | [] => simp [extractRecList, flaggedLeavesList]
  | c :: cs =>
    rw [show extractRecList true (c :: cs) path i im =
      extractRec true c (childPath path i) im ++
      extractRecList true cs path (i + 1) im from by rw [extractRecList]]
    rw [show flaggedLeavesList (c :: cs) path i im =
      flaggedLeaves c (childPath path i) im ++
      flaggedLeavesList cs path (i + 1) im from by rw [flaggedLeavesList]]
    rw [List.filter_append, List.map_append]
    rw [extract_safe_eq c (childPath path i) im,
      extract_safe_eq_list cs path (i + 1) im]
  termination_by sizeOf l
end

mutual
/-- Advanced-mode extraction returns every enumerated leaf, flagged or not. -/
theorem extract_adv_eq (n : Node) (path : String) (im : Bool) :
    extractRec false n path im = (flaggedLeaves n path im).map Prod.fst := by
  match n with
  | .mk nt nattrs ncontent ntext =>
    cases ncontent with
    | some l =>
      rw [extractRec.eq_1, flaggedLeaves.eq_1,
        if_neg (show ¬ ((isMacroNode (.mk nt nattrs (some l) ntext) && false)
          = true) from by simp),
        List.map_append,
        extract_adv_eq_list l path 0
          (isMacroNode (.mk nt nattrs (some l) ntext) || im)]
      congr 1
      exact adv_head_eq nt ntext path im
        (im || isMacroNode (.mk nt nattrs (some l) ntext))
    | none =>
      rw [extractRec.eq_2, flaggedLeaves.eq_2,
        if_neg (show ¬ ((isMacroNode (.mk nt nattrs none ntext) && false)
          = true) from by simp),
        List.map_append]
      rw [show ((List.map Prod.fst ([] : List (TextNode × Bool)) : List TextNode))
          = [] from rfl,
        List.append_nil, List.append_nil]
      exact adv_head_eq nt ntext path im
        (im || isMacroNode (.mk nt nattrs none ntext))
  termination_by sizeOf n

theorem extract_adv_eq_list (l : List Node) (path : String) (i : Nat)
    (im : Bool) :
    extractRecList false l path i im =
      (flaggedLeavesList l path i im).map Prod.fst := by
  match l with
  | [] => simp [extractRecList, flaggedLeavesList]
  | c :: cs =>
    rw [show extractRecList false (c :: cs) path i im =
      extractRec false c (childPath path i) im ++
      extractRecList false cs path (i + 1) im from by rw [extractRecList]]
    rw [show flaggedLeavesList (c :: cs) path i im =
      flaggedLeaves c (childPath path i) im ++
      flaggedLeavesList cs path (i + 1) im from by rw [flaggedLeavesList]]
    rw [List.map_append]
    rw [extract_adv_eq c (childPath path i) im,
      extract_adv_eq_list cs path (i + 1) im]
  termination_by sizeOf l
end

/-- C4: safe-mode extraction is exactly the leaves whose paths avoid opaque
containers — no leaf flagged as inside (or being) a macro node is ever
returned — and advanced-mode extraction returns every enumerated leaf, in
particular every non-blank text leaf inside an opaque container. -/
theorem C4_safe_advanced_extraction :
    (∀ adf : Node, extract_text_nodes true adf =
      ((flaggedLeaves adf "" false).filter (fun p => !p.2)).map Prod.fst) ∧
    (∀ adf : Node, extract_text_nodes false adf =
      (flaggedLeaves adf "" false).map Prod.fst) ∧
    (∀ (adf : Node) (tn : TextNode), tn ∈ extract_text_nodes true adf →
      (tn, false) ∈ flaggedLeaves adf "" false) ∧
    (∀ (adf : Node) (tn : TextNode) (f : Bool),
      (tn, f) ∈ flaggedLeaves adf "" false →
      tn ∈ extract_text_nodes false adf) := by
  refine ⟨?_, ?_, ?_, ?_⟩
  · intro adf; exact extract_safe_eq adf "" false
  · intro adf; exact extract_adv_eq adf "" false
  · intro adf tn htn
    rw [extract_text_nodes, extract_safe_eq adf "" false] at htn
    rw [List.mem_map] at htn
    obtain ⟨p, hp, hfst⟩ := htn
    rw [List.mem_filter] at hp
    obtain ⟨hmem, hflag⟩ := hp
    have hp2 : p = (tn, false) := by
      cases p with
      | mk a b =>
        simp only [Bool.not_eq_true'] at hflag
        simp only at hfst
        rw [hfst, hflag]
    rw [← hp2]
    exact hmem
  · intro adf tn f htn
    rw [extract_text_nodes, extract_adv_eq adf "" false]
    rw [List.mem_map]
    exact ⟨(tn, f), htn, rfl⟩

/-- C4 witness: a panel (opaque) containing a text leaf — the safe-mode
leaf "outside" carries flag `false`, and advanced mode also returns the
leaf "inside" the panel. -/
theorem C4_safe_advanced_extraction_witness :
    ((⟨"content.0.content.0.text", "outside"⟩ : TextNode), false) ∈
      flaggedLeaves (docN [paraN [textN "outside"],
        Node.mk (some "panel") [("panelType", .s "info")]
          (some [paraN [textN "inside"]]) none]) "" false ∧
    (⟨"content.1.content.0.content.0.text", "inside"⟩ : TextNode) ∈
      extract_text_nodes false (docN [paraN [textN "outside"],
        Node.mk (some "panel") [("panelType", .s "info")]
          (some [paraN [textN "inside"]]) none]) := by
  constructor
  · exact C4_safe_advanced_extraction.2.2.1
      (docN [paraN [textN "outside"],
        Node.mk (some "panel") [("panelType", .s "info")]
          (some [paraN [textN "inside"]]) none])
      ⟨"content.0.content.0.text", "outside"⟩ (by decide)
  · exact C4_safe_advanced_extraction.2.2.2
      (docN [paraN [textN "outside"],
        Node.mk (some "panel") [("panelType", .s "info")]
          (some [paraN [textN "inside"]]) none])
      ⟨"content.1.content.0.content.0.text", "inside"⟩ true (by decide)

mutual
/-- Every extracted leaf has non-blank text (`text.strip()` guard). -/
theorem extract_strip (skip : Bool) (n : Node) (path : String) (im : Bool) :
    ∀ tn ∈ extractRec skip n path im, pyStrip tn.text ≠ "" := by
  match n with
  | .mk nt nattrs ncontent ntext =>
    intro tn htn
    cases ncontent with
    | some l =>
      rw [extractRec.eq_1] at htn
      split at htn
      · simp at htn
      · rcases List.mem_append.mp htn with h1 | h2
        · split at h1
          · have h2 : tn ∈ (if pyStrip (ntext.getD "") ≠ "" then
                [(⟨textPath path, ntext.getD ""⟩ : TextNode)] else []) := h1
            split at h2
            next hstrip =>
              rcases List.mem_singleton.mp h2 with rfl
              exact hstrip
            next => simp at h2
          · simp at h1
        · exact extract_strip_list skip l path 0 _ tn h2
    | none =>
      rw [extractRec.eq_2] at htn
      split at htn
      · simp at htn
      · rcases List.mem_append.mp htn with h1 | h2
        · split at h1
          · have h2 : tn ∈ (if pyStrip (ntext.getD "") ≠ "" then
                [(⟨textPath path, ntext.getD ""⟩ : TextNode)] else []) := h1
            split at h2
            next hstrip =>
              rcases List.mem_singleton.mp h2 with rfl
              exact hstrip
            next => simp at h2
          · simp at h1
        · simp at h2
  termination_by sizeOf n

theorem extract_strip_list (skip : Bool) (l : List Node) (path : String)
    (i : Nat) (im : Bool) :
    ∀ tn ∈ extractRecList skip l path i im, pyStrip tn.text ≠ "" := by
  match l with
  | [] => intro tn htn; simp [extractRecList] at htn
  | c :: cs =>
    intro tn htn
    rw [show extractRecList skip (c :: cs) path i im =
      extractRec skip c (childPath path i) im ++
      extractRecList skip cs path (i + 1) im from by rw [extractRecList]] at htn
    rcases List.mem_append.mp htn with h1 | h2
    · exact extract_strip skip c (childPath path i) im tn h1
    · exact extract_strip_list skip cs path (i + 1) im tn h2
  termination_by sizeOf l
end

/-- Every emitted change's `old_text` is the text of one of the input
leaves. -/
theorem computeChangesGo_old_text (θ : Score) (cands : List String) :
    ∀ (nodes : List TextNode) (used : List Nat) (c : TextChange),
      c ∈ (computeChangesGo θ cands nodes used).1 →
      ∃ nd ∈ nodes, c.old_text = nd.text := by
  intro nodes
  induction nodes with
  | nil => intro used c hc; simp [computeChangesGo] at hc
  | cons nd ns ih =>
    intro used c hc
    rw [computeChangesGo] at hc
    split at hc
    next i t hb =>
      split at hc
      · rcases List.mem_cons.mp hc with rfl | hc2
        · exact ⟨nd, List.mem_cons_self nd ns, rfl⟩
        · obtain ⟨nd2, hnd2, he⟩ := ih (i :: used) c hc2
          exact ⟨nd2, List.mem_cons_of_mem nd hnd2, he⟩
      · obtain ⟨nd2, hnd2, he⟩ := ih used c hc
        exact ⟨nd2, List.mem_cons_of_mem nd hnd2, he⟩
    next hb =>
      obtain ⟨nd2, hnd2, he⟩ := ih used c hc
      exact ⟨nd2, List.mem_cons_of_mem nd hnd2, he⟩

/-- C10: extraction (in either mode) never returns a leaf whose text strips
to the empty string, and consequently no computed `TextChange` can have a
whitespace-only `old_text`. -/
theorem C10_no_blank_leaves :
    (∀ (skip : Bool) (adf : Node) (tn : TextNode),
      tn ∈ extract_text_nodes skip adf → pyStrip tn.text ≠ "") ∧
    (∀ (skip : Bool) (adf : Node) (θ : Score) (md : String) (c : TextChange),
      c ∈ compute_changes θ (extract_text_nodes skip adf) md →
      pyStrip c.old_text ≠ "") := by
  constructor
  · intro skip adf tn htn
    exact extract_strip skip adf "" false tn htn
  · intro skip adf θ md c hc
    obtain ⟨nd, hnd, he⟩ :=
      computeChangesGo_old_text θ (extract_text_from_markdown md)
        (extract_text_nodes skip adf) [] c hc
    rw [he]
    exact extract_strip skip adf "" false nd hnd

/-- C10 witness: a whitespace-only leaf is omitted from extraction, and a
changed non-blank leaf yields a change with non-blank `old_text`. -/
theorem C10_no_blank_leaves_witness :
    pyStrip "hi" ≠ "" ∧
    pyStrip (TextChange.old_text ⟨"content.0.content.1.text", "hi", "hi zz"⟩) ≠ "" ∧
    extract_text_nodes true (docN [paraN [textN "   ", textN "hi"]]) =
      [⟨"content.0.content.1.text", "hi"⟩] := by
  refine ⟨?_, ?_, by decide⟩
  · exact C10_no_blank_leaves.1 true (docN [paraN [textN "   ", textN "hi"]])
      ⟨"content.0.content.1.text", "hi"⟩ (by decide)
  · exact C10_no_blank_leaves.2 true (docN [paraN [textN "   ", textN "hi"]])
      defaultThreshold "hi zz" ⟨"content.0.content.1.text", "hi", "hi zz"⟩
      (by decide)

/-! ### Claim C3: section-boundary insertion position -/

/-- Position `j` holds a sibling heading of level `≤ L` (the loop's break
condition). -/
def isSectionBoundaryB (content : List Node) (L : Int) (j : Nat) : Bool :=
  match content.get? j with
  | some nd => nd.ntype = some "heading" && decide (attrsLevel nd.attrs ≤ L)
  | none => false

theorem fnsi_go_spec (content : List Node) (L : Int) :
    ∀ (l : List Node) (i : Nat), l = content.drop i → i ≤ content.length →
      ∀ r, findNextSectionIdx.go content L l i = r →
        i ≤ r ∧ r ≤ content.length ∧
        (∀ j, i ≤ j → j < r → isSectionBoundaryB content L j = false) ∧
        (r < content.length → isSectionBoundaryB content L r = true) := by
  intro l
  induction l with
  | nil =>
    intro i hdrop hle r hr
    rw [show findNextSectionIdx.go content L [] i = content.length from rfl] at hr
    have hi : content.length ≤ i := List.drop_eq_nil_iff.mp hdrop.symm
    subst hr
    refine ⟨by omega, le_refl _, ?_, by omega⟩
    intro j hj1 hj2
    omega
  | cons nd rest ih =>
    intro i hdrop hle r hr
    have hget : content.get? i = some nd := by
      have h0 : (content.drop i)[0]? = content[i + 0]? :=
        List.getElem?_drop content i 0
      rw [← hdrop] at h0
      simpa [List.get?_eq_getElem?] using h0.symm
    have hlt : i < content.length := (List.get?_eq_some.mp hget).1
    have hrest : rest = content.drop (i + 1) := by
      have h1 : List.drop 1 (List.drop i content) = List.drop (i + 1) content :=
        List.drop_drop 1 i content
      rw [← hdrop] at h1
      simpa using h1
    rw [show findNextSectionIdx.go content L (nd :: rest) i =
      (if nd.ntype = some "heading" ∧ attrsLevel nd.attrs ≤ L then i
       else findNextSectionIdx.go content L rest (i + 1)) from by
        rw [findNextSectionIdx.go]] at hr
    split at hr
    next hc =>
      subst hr
      refine ⟨le_refl i, by omega, ?_, ?_⟩
      · intro j hj1 hj2
        omega
      · intro _
        rw [isSectionBoundaryB, hget]
        simp [hc.1, hc.2]
    next hc =>
      have hih := ih (i + 1) hrest (by omega) r hr
      refine ⟨by omega, hih.2.1, ?_, hih.2.2.2⟩
      intro j hj1 hj2
      by_cases hji : j = i
      · subst hji
        rw [isSectionBoundaryB, hget]
        rw [not_and_or] at hc
        rcases hc with hc | hc
        · simp [hc]
        · simp [hc]
      · exact hih.2.2.1 j (by omega) hj2

/-- C3: with the anchor heading found at index `hIdx` and carrying level
`L`, the insertion index computed by `insert_section`'s loop is the
position of the first later sibling heading whose level is `≤ L` (every
intervening position, including headings of level `> L`, fails the
boundary test), or the end of the sibling list when no such heading
exists; and `insert_section` inserts the new heading (and its optional
paragraph) exactly there. -/
theorem C3_section_boundary :
    ∀ (nt0 : Option String) (na0 : Attrs) (nx0 : Option String)
      (content : List Node) (ah newText : String) (lvl : Int)
      (ct : Option String) (idH idP : String) (hIdx : Nat) (anchor : Node),
      find_heading_index content ah = some hIdx →
      content.get? hIdx = some anchor →
      anchor.ntype = some "heading" →
      (hIdx < findNextSectionIdx content hIdx (attrsLevel anchor.attrs) ∧
       findNextSectionIdx content hIdx (attrsLevel anchor.attrs) ≤ content.length ∧
       (∀ j, hIdx < j → j < findNextSectionIdx content hIdx (attrsLevel anchor.attrs) →
         isSectionBoundaryB content (attrsLevel anchor.attrs) j = false) ∧
       (findNextSectionIdx content hIdx (attrsLevel anchor.attrs) < content.length →
         isSectionBoundaryB content (attrsLevel anchor.attrs)
           (findNextSectionIdx content hIdx (attrsLevel anchor.attrs)) = true)) ∧
      insert_section (.mk nt0 na0 (some content) nx0) (some ah) newText lvl ct
          idH idP =
        some (.mk nt0 na0 (some (
          match ct with
          | some c =>
            pyInsert (pyInsert content
                (findNextSectionIdx content hIdx (attrsLevel anchor.attrs))
                (newHeadingNode newText lvl idH))
              (findNextSectionIdx content hIdx (attrsLevel anchor.attrs) + 1)
              (newParagraphNode c idP)
          | none =>
            pyInsert content
              (findNextSectionIdx content hIdx (attrsLevel anchor.attrs))
              (newHeadingNode newText lvl idH))) nx0) := by
  intro nt0 na0 nx0 content ah newText lvl ct idH idP hIdx anchor hf hget hnt
  have hlt : hIdx < content.length := (List.get?_eq_some.mp hget).1
  have hspec := fnsi_go_spec content (attrsLevel anchor.attrs)
    (content.drop (hIdx + 1)) (hIdx + 1) rfl (by omega)
    (findNextSectionIdx content hIdx (attrsLevel anchor.attrs))
    (by rw [findNextSectionIdx])
  constructor
  · refine ⟨by omega, hspec.2.1, ?_, hspec.2.2.2⟩
    intro j hj1 hj2
    exact hspec.2.2.1 j (by omega) hj2
  · rw [insert_section]
    simp only [Node.content, Option.getD_some, hf, hget, hnt, if_pos rfl]
    cases ct with
    | some c => rfl
    | none => rfl

/-- The spec's boundary example: headings at levels [1,2,3,2]. -/
def demoContent : List Node :=
  [headN 1 "A", headN 2 "B", headN 3 "C", headN 2 "D"]

theorem C3_section_boundary_witness :
    findNextSectionIdx demoContent 1 (attrsLevel (headN 2 "B").attrs) = 3 ∧
    ((1 < findNextSectionIdx demoContent 1 (attrsLevel (headN 2 "B").attrs) ∧
      findNextSectionIdx demoContent 1 (attrsLevel (headN 2 "B").attrs) ≤ demoContent.length ∧
      (∀ j, 1 < j → j < findNextSectionIdx demoContent 1 (attrsLevel (headN 2 "B").attrs) →
        isSectionBoundaryB demoContent (attrsLevel (headN 2 "B").attrs) j = false) ∧
      (findNextSectionIdx demoContent 1 (attrsLevel (headN 2 "B").attrs) < demoContent.length →
        isSectionBoundaryB demoContent (attrsLevel (headN 2 "B").attrs)
          (findNextSectionIdx demoContent 1 (attrsLevel (headN 2 "B").attrs)) = true)) ∧
     insert_section (.mk (some "doc") [] (some demoContent) none) (some "B") "New" 3
         (some "body") "idH" "idP" =
       some (.mk (some "doc") []
         (some (pyInsert (pyInsert demoContent
             (findNextSectionIdx demoContent 1 (attrsLevel (headN 2 "B").attrs))
             (newHeadingNode "New" 3 "idH"))
           (findNextSectionIdx demoContent 1 (attrsLevel (headN 2 "B").attrs) + 1)
           (newParagraphNode "body" "idP"))) none)) :=
  ⟨by decide,
   C3_section_boundary (some "doc") [] none demoContent "B" "New" 3 (some "body")
     "idH" "idP" 1 (headN 2 "B") (by decide) (by decide) (by decide)⟩

/-! ### Claim C1: the extract/convert/diff/apply round trip -/

/-- C1 counterexample data: the round trip on `twoLeafTree` (one paragraph
holding the two text leaves `"a "` and `"a"`).  The markdown rendering joins
the leaves into the single line `"a a"`, the differ matches that line to the
first leaf and emits a change, and applying it rewrites the first leaf. -/
theorem C1_counterexample :
    compute_changes defaultThreshold (extract_text_nodes true twoLeafTree)
        (convert_to_markdown twoLeafTree false) =
      [⟨"content.0.content.0.text", "a ", "a a"⟩] ∧
    apply_text_changes twoLeafTree
        (compute_changes defaultThreshold (extract_text_nodes true twoLeafTree)
          (convert_to_markdown twoLeafTree false)) =
      .ok (docN [paraN [textN "a a", textN "a"]]) ∧
    docN [paraN [textN "a a", textN "a"]] ≠ twoLeafTree := by
  refine ⟨by decide, by decide, by decide⟩

/-- A simple top-level block: a heading or a paragraph, each holding exactly
one text leaf. -/
inductive SBlock where
  | hblock (lvl : Int) (t : String)
  | pblock (t : String)

/-- The text leaf literal of a simple block. -/
def SBlock.text : SBlock → String
  | .hblock _ t => t
  | .pblock t => t

/-- The ADF node of a simple block. -/
def SBlock.node : SBlock → Node
  | .hblock lvl t => headN lvl t
  | .pblock t => paraN [textN t]

/-- A document made of simple blocks. -/
def simpleDoc (bs : List SBlock) : Node := docN (bs.map SBlock.node)

/-- Heading levels within markdown's `#`-range. -/
def blockLevelOK : SBlock → Bool
  | .hblock lvl _ => decide (1 ≤ lvl ∧ lvl ≤ 6)
  | .pblock _ => true

/-- An admissible first character for a round-trip-stable line: none of the
markdown markers `TextDiffer` strips, no HTML-comment opener, not a digit,
not whitespace. -/
def plainHeadOK (c : Char) : Bool :=
  !(c = '#' || c = '-' || c = '+' || c = '>' || c = '<' || c.isDigit || isPySpace c)

/-- An admissible character anywhere in a round-trip-stable line: no newline
(line structure), no `*` and no backtick (emphasis / inline-code markers). -/
def plainCharOK (c : Char) : Bool :=
  !(c = '\n' || c = '*' || c = btick)

/-- A line that `TextDiffer._extract_text_from_markdown` passes through
verbatim: nonempty, marker-free head, marker-free body, and no surrounding
whitespace (so `strip()` is the identity on it). -/
def plainLine (t : String) : Bool :=
  match t.toList with
  | [] => false
  | c :: _ =>
    plainHeadOK c && t.toList.all plainCharOK &&
      (match t.toList.reverse with
       | [] => false
       | lc :: _ => !isPySpace lc)

theorem str_append_empty (s : String) : s ++ "" = s := by
  cases s with
  | mk l => show String.mk (l ++ []) = String.mk l; rw [List.append_nil]

theorem plain_parts (t : String) (h : plainLine t = true) :
    (∃ c l1, t.data = c :: l1 ∧ plainHeadOK c = true) ∧
    (∀ ch ∈ t.data, plainCharOK ch = true) ∧
    (∃ lc l2, t.data.reverse = lc :: l2 ∧ isPySpace lc = false) := by
  rw [plainLine] at h
  cases ht : t.toList with
  | nil => rw [ht] at h; simp at h
  | cons c rest =>
    rw [ht] at h
    cases htr : t.toList.reverse with
    | nil =>
      rw [show t.toList = t.data from rfl] at htr
      rw [show t.toList = t.data from rfl] at ht
      rw [List.reverse_eq_nil_iff] at htr
      rw [htr] at ht; exact absurd ht (by simp)
    | cons lc l2 =>
      rw [ht] at htr
      have h2 : (plainHeadOK c && (c :: rest).all plainCharOK &&
          (match (c :: rest).reverse with
           | [] => false
           | lc :: _ => !isPySpace lc)) = true := h
      rw [htr] at h2
      simp only [Bool.and_eq_true, Bool.not_eq_true'] at h2
      rw [show t.toList = t.data from rfl] at ht
      refine ⟨⟨c, rest, ht, h2.1.1⟩, ?_, lc, l2, by rw [ht]; exact htr, h2.2⟩
      intro ch hch
      rw [ht] at hch
      exact List.all_eq_true.mp h2.1.2 ch hch

/-- `pyStrip` is the identity on strings with non-whitespace first and last
characters. -/
theorem pyStrip_id_of (l : List Char) (c lc : Char) (l1 l2 : List Char)
    (h1 : l = c :: l1) (h2 : l.reverse = lc :: l2)
    (hc : isPySpace c = false) (hlc : isPySpace lc = false) :
    pyStrip ⟨l⟩ = ⟨l⟩ := by
  rw [pyStrip]
  show String.mk (((l.dropWhile isPySpace).reverse.dropWhile isPySpace).reverse) = _
  have hd1 : l.dropWhile isPySpace = l := by
    rw [h1, List.dropWhile_cons, if_neg (by simp [hc])]
  rw [hd1, h2, List.dropWhile_cons, if_neg (by simp [hlc]), ← h2,
    List.reverse_reverse]

theorem plain_pyStrip (t : String) (h : plainLine t = true) : pyStrip t = t := by
  obtain ⟨⟨c, l1, h1, _⟩, _, lc, l2, h2, hlc⟩ := plain_parts t h
  have hc : isPySpace c = false := by
    have := (plain_parts t h).1
    obtain ⟨c', l1', h1', hh⟩ := this
    rw [h1] at h1'
    injection h1' with e1 e2
    subst e1
    simp only [plainHeadOK, Bool.not_eq_true', Bool.or_eq_false_iff] at hh
    exact hh.2
  have : pyStrip ⟨t.data⟩ = ⟨t.data⟩ := pyStrip_id_of t.data c lc l1 l2 h1 h2 hc hlc
  exact this

theorem subPair2Go_id (d : Char) :
    ∀ (fuel : Nat) (cs : List Char), (∀ c ∈ cs, c ≠ d) →
      subPair2Go d fuel cs = cs := by
  intro fuel
  induction fuel with
  | zero => intro cs _; rfl
  | succ n ih =>
    intro cs h
    match cs with
    | [] => rfl
    | [c] => rfl
    | [c, c2] =>
      rw [subPair2Go.eq_5, if_neg (fun hc => h c (by simp) hc.1),
        ih [c2] (fun x hx => h x (List.mem_cons_of_mem c hx))]
    | c :: c2 :: c3 :: rest =>
      rw [subPair2Go.eq_4, if_neg (fun hc => h c (by simp) hc.1),
        ih (c2 :: c3 :: rest) (fun x hx => h x (List.mem_cons_of_mem c hx))]

theorem subPair1Go_id (d : Char) :
    ∀ (fuel : Nat) (cs : List Char), (∀ c ∈ cs, c ≠ d) →
      subPair1Go d fuel cs = cs := by
  intro fuel
  induction fuel with
  | zero => intro cs _; rfl
  | succ n ih =>
    intro cs h
    match cs with
    | [] => rfl
    | [c] =>
      rw [subPair1Go.eq_4, if_neg (h c (by simp)), ih [] (by simp)]
    | c :: c2 :: rest =>
      rw [subPair1Go.eq_3, if_neg (h c (by simp)),
        ih (c2 :: rest) (fun x hx => h x (List.mem_cons_of_mem c hx))]

theorem subPair2_id (d : Char) (cs : List Char) (h : ∀ c ∈ cs, c ≠ d) :
    subPair2 d cs = cs := subPair2Go_id d cs.length cs h

theorem subPair1_id (d : Char) (cs : List Char) (h : ∀ c ∈ cs, c ≠ d) :
    subPair1 d cs = cs := subPair1Go_id d cs.length cs h

theorem subHeader_plain (t : String) (h : plainLine t = true) : subHeader t = t := by
  obtain ⟨⟨c, l1, h1, hh⟩, _, _⟩ := plain_parts t h
  simp only [plainHeadOK, Bool.not_eq_true', Bool.or_eq_false_iff] at hh
  rw [subHeader, show t.toList = t.data from rfl, h1, List.takeWhile_cons,
    if_neg (by simp [hh.1.1.1.1.1.1])]

theorem subListMarker_plain (t : String) (h : plainLine t = true) :
    subListMarker t = t := by
  obtain ⟨⟨c, l1, h1, hh⟩, hall, _⟩ := plain_parts t h
  simp only [plainHeadOK, Bool.not_eq_true', Bool.or_eq_false_iff] at hh
  have hstar : plainCharOK c = true := hall c (by rw [h1]; simp)
  simp only [plainCharOK, Bool.not_eq_true', Bool.or_eq_false_iff] at hstar
  rw [subListMarker, show t.toList = t.data from rfl, h1]
  split
  next m c2 rest heq =>
    injection heq with e1 e2
    subst e1
    rw [if_neg]
    intro hc
    rcases Bool.and_eq_true _ _ |>.mp hc with ⟨hc1, _⟩
    rcases Bool.or_eq_true _ _ |>.mp hc1 with hc2 | hc3
    · rcases Bool.or_eq_true _ _ |>.mp hc2 with hc4 | hc5
      · exact absurd (of_decide_eq_true hc4) (of_decide_eq_false hh.1.1.1.1.1.2)
      · exact absurd (of_decide_eq_true hc5) (of_decide_eq_false hstar.1.2)
    · exact absurd (of_decide_eq_true hc3) (of_decide_eq_false hh.1.1.1.1.2)
  next => rfl

theorem subNumMarker_plain (t : String) (h : plainLine t = true) :
    subNumMarker t = t := by
  obtain ⟨⟨c, l1, h1, hh⟩, _, _⟩ := plain_parts t h
  simp only [plainHeadOK, Bool.not_eq_true', Bool.or_eq_false_iff] at hh
  rw [subNumMarker, show t.toList = t.data from rfl, h1, List.takeWhile_cons,
    if_neg (by simp [hh.1.2])]

theorem subQuoteMarker_plain (t : String) (h : plainLine t = true) :
    subQuoteMarker t = t := by
  obtain ⟨⟨c, l1, h1, hh⟩, _, _⟩ := plain_parts t h
  have hne : c ≠ '>' := fun hc =>
    absurd hc (of_decide_eq_false (by
      simp only [plainHeadOK, Bool.not_eq_true', Bool.or_eq_false_iff] at hh
      exact hh.1.1.1.2))
  rw [subQuoteMarker, show t.toList = t.data from rfl, h1]
  split
  next c2 rest heq =>
    injection heq with e1 e2
    exact absurd e1 hne
  next => rfl

theorem pyStartsWith_false_of_head (s pre : String) (c c' : Char)
    (l l' : List Char) (hs : s.data = c :: l) (hp : pre.data = c' :: l')
    (hne : c ≠ c') : pyStartsWith s pre = false := by
  rw [pyStartsWith, show s.toList = s.data from rfl,
    show pre.toList = pre.data from rfl, hs, hp]
  have hb : (c' == c) = false := by
    rw [beq_eq_false_iff_ne]
    exact Ne.symm hne
  simp [List.isPrefixOf, hb]

theorem stripMarkdownLine_plain (t : String) (h : plainLine t = true) :
    stripMarkdownLine t = some t := by
  obtain ⟨⟨c, l1, h1, hh⟩, hall, _⟩ := plain_parts t h
  simp only [plainHeadOK, Bool.not_eq_true', Bool.or_eq_false_iff] at hh
  have hstrip := plain_pyStrip t h
  have hne : t ≠ "" := by
    intro he
    rw [he] at h1
    exact absurd h1 (by simp [show ("" : String).data = [] from rfl])
  have hnc : pyStartsWith t "<!--" = false :=
    pyStartsWith_false_of_head t "<!--" c '<' l1 ['!', '-', '-'] h1 rfl
      (fun hc => absurd hc (of_decide_eq_false hh.1.1.2))
  have hhd : plainCharOK c = true := hall c (by rw [h1]; simp)
  simp only [plainCharOK, Bool.not_eq_true', Bool.or_eq_false_iff] at hhd
  have hnb : pyStartsWith t ⟨[btick, btick, btick]⟩ = false :=
    pyStartsWith_false_of_head t ⟨[btick, btick, btick]⟩ c btick l1 [btick, btick]
      h1 rfl (fun hc => absurd hc (of_decide_eq_false hhd.2))
  have hnostar : ∀ ch ∈ t.data, ch ≠ '*' := by
    intro ch hch hc
    have := hall ch hch
    simp only [plainCharOK, Bool.not_eq_true', Bool.or_eq_false_iff] at this
    exact absurd hc (of_decide_eq_false this.1.2)
  have hnotick : ∀ ch ∈ t.data, ch ≠ btick := by
    intro ch hch hc
    have := hall ch hch
    simp only [plainCharOK, Bool.not_eq_true', Bool.or_eq_false_iff] at this
    exact absurd hc (of_decide_eq_false this.2)
  rw [stripMarkdownLine, hstrip]
  rw [if_neg (by simp [hne, hnc])]
  simp only [subHeader_plain t h, subListMarker_plain t h, subNumMarker_plain t h,
    subQuoteMarker_plain t h, hnb, Bool.false_eq_true, if_false,
    show t.toList = t.data from rfl, subPair2_id '*' t.data hnostar,
    subPair1_id '*' t.data hnostar, subPair1_id btick t.data hnotick,
    show String.mk t.data = t from rfl]
  rw [if_neg (by simp [hne])]

theorem stripMarkdownLine_blank : stripMarkdownLine "" = none := by decide

theorem takeWhile_replicate_stop (p : Char → Bool) (c x : Char) (l : List Char)
    (hc : p c = true) (hx : p x = false) :
    ∀ k, (List.replicate k c ++ x :: l).takeWhile p = List.replicate k c := by
  intro k
  induction k with
  | zero => simp [List.takeWhile_cons, hx]
  | succ n ih => simp [List.replicate_succ, List.takeWhile_cons, hc, ih]

/-- The heading line the converter renders: its data decomposition. -/
theorem headingLine_data (k : Nat) (t : String) :
    ((⟨List.replicate k '#'⟩ : String) ++ " " ++ t).data =
      List.replicate k '#' ++ ' ' :: t.data := by
  rw [String.data_append, String.data_append]
  simp [show (" " : String).data = [' '] from rfl]

theorem drop_replicate_append (k : Nat) (c : Char) (l : List Char) :
    (List.replicate k c ++ l).drop k = l := by
  induction k with
  | zero => simp
  | succ n ih => simp [List.replicate_succ, ih]

theorem subHeader_headingLine (k : Nat) (t : String) (hk1 : 1 ≤ k) (hk2 : k ≤ 6)
    (h : plainLine t = true) :
    subHeader ((⟨List.replicate k '#'⟩ : String) ++ " " ++ t) = t := by
  obtain ⟨⟨c, l1, h1, hh⟩, _, _⟩ := plain_parts t h
  simp only [plainHeadOK, Bool.not_eq_true', Bool.or_eq_false_iff] at hh
  rw [subHeader]
  rw [show ((⟨List.replicate k '#'⟩ : String) ++ " " ++ t).toList =
    ((⟨List.replicate k '#'⟩ : String) ++ " " ++ t).data from rfl, headingLine_data]
  rw [takeWhile_replicate_stop _ '#' ' ' t.data (by decide) (by decide)]
  rw [List.length_replicate]
  rw [if_pos ⟨hk1, hk2⟩]
  rw [drop_replicate_append k '#' (' ' :: t.data)]
  split
  next c2 rest heq =>
    injection heq with e1 e2
    subst e1
    subst e2
    rw [if_pos (by decide), h1, List.dropWhile_cons, if_neg (by simp [hh.2]), ← h1]
  next heq => exact absurd heq (by simp)

theorem pyStrip_headingLine (k : Nat) (t : String) (hk1 : 1 ≤ k)
    (h : plainLine t = true) :
    pyStrip ((⟨List.replicate k '#'⟩ : String) ++ " " ++ t) =
      (⟨List.replicate k '#'⟩ : String) ++ " " ++ t := by
  obtain ⟨_, _, lc, l2, h2, hlc⟩ := plain_parts t h
  have hd := headingLine_data k t
  match k, hk1 with
  | n + 1, _ =>
    have h1 : ((⟨List.replicate (n + 1) '#'⟩ : String) ++ " " ++ t).data =
        '#' :: (List.replicate n '#' ++ ' ' :: t.data) := by
      rw [hd, List.replicate_succ, List.cons_append]
    have h2' : ((⟨List.replicate (n + 1) '#'⟩ : String) ++ " " ++ t).data.reverse =
        lc :: (l2 ++ [' '] ++ (List.replicate (n + 1) '#').reverse) := by
      rw [hd, List.reverse_append, List.reverse_cons, h2]
      simp
    exact pyStrip_id_of _ '#' lc _ _ h1 h2' (by decide) hlc

theorem stripMarkdownLine_headingLine (lvl : Int) (t : String)
    (hl1 : 1 ≤ lvl) (hl2 : lvl ≤ 6) (h : plainLine t = true) :
    stripMarkdownLine (strRepeat '#' lvl ++ " " ++ t) = some t := by
  obtain ⟨⟨c, l1, hc1, hhead⟩, hall, _⟩ := plain_parts t h
  have hk1 : 1 ≤ lvl.toNat := by omega
  have hk2 : lvl.toNat ≤ 6 := by omega
  have hrep : strRepeat '#' lvl = (⟨List.replicate lvl.toNat '#'⟩ : String) := rfl
  have hd := headingLine_data lvl.toNat t
  have hdc : ((⟨List.replicate lvl.toNat '#'⟩ : String) ++ " " ++ t).data =
      '#' :: (List.replicate (lvl.toNat - 1) '#' ++ ' ' :: t.data) := by
    rw [hd]
    rw [show lvl.toNat = (lvl.toNat - 1) + 1 from by omega, List.replicate_succ,
      List.cons_append]
    rw [show lvl.toNat - 1 + 1 - 1 = lvl.toNat - 1 from by omega]
  have hlne : (⟨List.replicate lvl.toNat '#'⟩ : String) ++ " " ++ t ≠ "" := by
    intro he
    have := congrArg String.data he
    rw [hdc] at this
    exact absurd this (by simp [show ("" : String).data = [] from rfl])
  have hnc : pyStartsWith ((⟨List.replicate lvl.toNat '#'⟩ : String) ++ " " ++ t)
      "<!--" = false :=
    pyStartsWith_false_of_head _ "<!--" '#' '<' _ ['!', '-', '-'] hdc rfl
      (by decide)
  have hnostar : ∀ ch ∈ t.data, ch ≠ '*' := by
    intro ch hch hcq
    have := hall ch hch
    simp only [plainCharOK, Bool.not_eq_true', Bool.or_eq_false_iff] at this
    exact absurd hcq (of_decide_eq_false this.1.2)
  have hnotick : ∀ ch ∈ t.data, ch ≠ btick := by
    intro ch hch hcq
    have := hall ch hch
    simp only [plainCharOK, Bool.not_eq_true', Bool.or_eq_false_iff] at this
    exact absurd hcq (of_decide_eq_false this.2)
  have hhd : plainCharOK c = true := hall c (by rw [hc1]; simp)
  simp only [plainCharOK, Bool.not_eq_true', Bool.or_eq_false_iff] at hhd
  have hnb : pyStartsWith t ⟨[btick, btick, btick]⟩ = false :=
    pyStartsWith_false_of_head t ⟨[btick, btick, btick]⟩ c btick l1 [btick, btick]
      hc1 rfl (fun hcq => absurd hcq (of_decide_eq_false hhd.2))
  have hne : t ≠ "" := by
    intro he
    rw [he] at hc1
    exact absurd hc1 (by simp [show ("" : String).data = [] from rfl])
  rw [stripMarkdownLine, hrep, pyStrip_headingLine lvl.toNat t hk1 h]
  rw [if_neg (by simp [hlne, hnc])]
  simp only [subHeader_headingLine lvl.toNat t hk1 hk2 h, subListMarker_plain t h,
    subNumMarker_plain t h, subQuoteMarker_plain t h, hnb, Bool.false_eq_true,
    if_false, show t.toList = t.data from rfl, subPair2_id '*' t.data hnostar,
    subPair1_id '*' t.data hnostar, subPair1_id btick t.data hnotick,
    show String.mk t.data = t from rfl]
  rw [if_neg (by simp [hne])]

/-- The markdown lines the converter renders for one simple block. -/
def blockLines : SBlock → List String
  | .hblock lvl t => [strRepeat '#' lvl ++ " " ++ t]
  | .pblock t => [t, ""]

/-- The markdown lines of a whole simple document. -/
def mdLines : List SBlock → List String
  | [] => []
  | b :: bs => blockLines b ++ mdLines bs

theorem extractAllText_headN (lvl : Int) (t : String) :
    extractAllText (headN lvl t) = t := by
  have hstep : extractAllText (headN lvl t) = t ++ "" := rfl
  rw [hstep, str_append_empty]

theorem extractAllText_paraN (t : String) :
    extractAllText (paraN [textN t]) = t := by
  have hstep : extractAllText (paraN [textN t]) = t ++ "" := rfl
  rw [hstep, str_append_empty]

theorem convertRec_headN (lvl : Int) (t : String) :
    convertRec (headN lvl t) false false = [strRepeat '#' lvl ++ " " ++ t] := by
  have hstep : convertRec (headN lvl t) false false =
      [strRepeat '#' lvl ++ " " ++ (t ++ "")] := rfl
  rw [hstep, str_append_empty]

theorem convertRec_paraN (t : String) (h : plainLine t = true) :
    convertRec (paraN [textN t]) false false = [t, ""] := by
  have hstep : convertRec (paraN [textN t]) false false =
      (if pyStrip (t ++ "") ≠ "" then [t ++ "", ""] else []) := rfl
  rw [hstep, str_append_empty, plain_pyStrip t h]
  rw [if_pos]
  intro he
  obtain ⟨⟨c, l1, h1, _⟩, _, _⟩ := plain_parts t h
  rw [he] at h1
  exact absurd h1 (by simp [show ("" : String).data = [] from rfl])

theorem convertRecList_simple (bs : List SBlock)
    (h : ∀ b ∈ bs, plainLine b.text = true) :
    convertRecList (bs.map SBlock.node) false false = mdLines bs := by
  induction bs with
  | nil => rfl
  | cons b rest ih =>
    have hstep : convertRecList ((b :: rest).map SBlock.node) false false =
        convertRec b.node false false ++
          convertRecList (rest.map SBlock.node) false false := rfl
    rw [hstep, ih (fun x hx => h x (List.mem_cons_of_mem b hx))]
    cases b with
    | hblock lvl t =>
      rw [show SBlock.node (.hblock lvl t) = headN lvl t from rfl,
        convertRec_headN lvl t]
      rfl
    | pblock t =>
      rw [show SBlock.node (.pblock t) = paraN [textN t] from rfl,
        convertRec_paraN t (h (.pblock t) (by simp))]
      rfl

theorem convert_simpleDoc (bs : List SBlock)
    (h : ∀ b ∈ bs, plainLine b.text = true) :
    convert_to_markdown (simpleDoc bs) false =
      String.intercalate "\n" (mdLines bs) := by
  rw [convert_to_markdown]
  rw [show convertRec (simpleDoc bs) false false =
    convertRecList (bs.map SBlock.node) false false from rfl]
  rw [convertRecList_simple bs h]

theorem interc_go_append (sep : String) :
    ∀ (l : List String) (x y : String),
      String.intercalate.go (x ++ y) sep l = x ++ String.intercalate.go y sep l := by
  intro l
  induction l with
  | nil => intro x y; rfl
  | cons a as ih =>
    intro x y
    show String.intercalate.go (x ++ y ++ sep ++ a) sep as =
      x ++ String.intercalate.go (y ++ sep ++ a) sep as
    rw [String.append_assoc x y sep, String.append_assoc x (y ++ sep) a]
    exact ih x (y ++ sep ++ a)

theorem interc_cons (sep a : String) (l : List String) (h : l ≠ []) :
    String.intercalate sep (a :: l) = a ++ sep ++ String.intercalate sep l := by
  match l, h with
  | b :: bs, _ =>
    show String.intercalate.go (a ++ sep ++ b) sep bs =
      a ++ sep ++ String.intercalate.go b sep bs
    exact interc_go_append sep bs (a ++ sep) b

theorem pySplitChar_go_no_sep (sep : Char) :
    ∀ (l acc : List Char), (∀ c ∈ l, c ≠ sep) →
      pySplitChar.go sep l acc = [⟨acc.reverse ++ l⟩] := by
  intro l
  induction l with
  | nil => intro acc _; simp [pySplitChar.go]
  | cons c cs ih =>
    intro acc h
    rw [pySplitChar.go, if_neg (h c (by simp)), ih (c :: acc)
      (fun x hx => h x (List.mem_cons_of_mem c hx))]
    simp

theorem pySplitChar_go_append (sep : Char) :
    ∀ (a : List Char) (acc rest : List Char), (∀ c ∈ a, c ≠ sep) →
      pySplitChar.go sep (a ++ sep :: rest) acc =
        (⟨acc.reverse ++ a⟩ : String) :: pySplitChar.go sep rest [] := by
  intro a
  induction a with
  | nil =>
    intro acc rest _
    rw [List.nil_append, pySplitChar.go, if_pos rfl]
    simp
  | cons c a' ih =>
    intro acc rest h
    rw [List.cons_append, pySplitChar.go, if_neg (h c (by simp)),
      ih (c :: acc) rest (fun x hx => h x (List.mem_cons_of_mem c hx))]
    simp

theorem pySplit_intercalate :
    ∀ (L : List String), L ≠ [] → (∀ s ∈ L, ∀ c ∈ s.data, c ≠ '\n') →
      pySplitChar '\n' (String.intercalate "\n" L) = L := by
  intro L
  induction L with
  | nil => intro h _; exact absurd rfl h
  | cons a L' ih =>
    intro _ h
    match L' with
    | [] =>
      show pySplitChar '\n' a = [a]
      rw [pySplitChar, pySplitChar_go_no_sep '\n' a.toList []
        (h a (by simp))]
      simp
    | b :: L2 =>
      rw [interc_cons "\n" a (b :: L2) (by simp)]
      rw [pySplitChar]
      rw [show (a ++ "\n" ++ String.intercalate "\n" (b :: L2)).toList =
        a.data ++ '\n' :: (String.intercalate "\n" (b :: L2)).data from by
          rw [show (a ++ "\n" ++ String.intercalate "\n" (b :: L2)).toList =
            (a ++ "\n" ++ String.intercalate "\n" (b :: L2)).data from rfl,
            String.data_append, String.data_append]
          simp [show ("\n" : String).data = ['\n'] from rfl]]
      rw [pySplitChar_go_append '\n' a.data [] (String.intercalate "\n" (b :: L2)).data
        (h a (by simp))]
      rw [show pySplitChar.go '\n' (String.intercalate "\n" (b :: L2)).data [] =
        pySplitChar '\n' (String.intercalate "\n" (b :: L2)) from rfl]
      rw [ih (by simp) (fun s hs => h s (List.mem_cons_of_mem a hs))]
      simp

theorem mdLines_no_newline (bs : List SBlock)
    (hplain : ∀ b ∈ bs, plainLine b.text = true) :
    ∀ s ∈ mdLines bs, ∀ c ∈ s.data, c ≠ '\n' := by
  induction bs with
  | nil => intro s hs; exact absurd hs (by simp [mdLines])
  | cons b rest ih =>
    intro s hs c hc
    rw [mdLines] at hs
    have hplt := hplain b (by simp)
    obtain ⟨_, hall, _⟩ := plain_parts b.text hplt
    rcases List.mem_append.mp hs with hs1 | hs2
    · cases b with
      | hblock lvl t =>
        rw [show blockLines (.hblock lvl t) = [strRepeat '#' lvl ++ " " ++ t]
          from rfl] at hs1
        rw [List.mem_singleton] at hs1
        subst hs1
        rw [show (strRepeat '#' lvl ++ " " ++ t).data =
          ((⟨List.replicate lvl.toNat '#'⟩ : String) ++ " " ++ t).data from rfl,
          headingLine_data] at hc
        rcases List.mem_append.mp hc with hc1 | hc2
        · intro he
          subst he
          exact absurd (List.eq_of_mem_replicate hc1) (by decide)
        · rcases List.mem_cons.mp hc2 with hc3 | hc4
          · subst hc3; decide
          · intro he
            subst he
            have := hall '\n' hc4
            simp [plainCharOK] at this
      | pblock t =>
        rw [show blockLines (.pblock t) = [t, ""] from rfl] at hs1
        rcases List.mem_cons.mp hs1 with hs3 | hs4
        · subst hs3
          intro he
          subst he
          have := hall '\n' hc
          simp [plainCharOK] at this
        · rw [List.mem_singleton] at hs4
          subst hs4
          exact absurd hc (by simp [show ("" : String).data = [] from rfl])
    · exact ih (fun x hx => hplain x (List.mem_cons_of_mem b hx)) s hs2 c hc

theorem mdLines_ne_nil (b : SBlock) (bs : List SBlock) :
    mdLines (b :: bs) ≠ [] := by
  rw [mdLines]
  cases b with
  | hblock lvl t => simp [blockLines]
  | pblock t => simp [blockLines]

theorem candidates_simple (bs : List SBlock)
    (hplain : ∀ b ∈ bs, plainLine b.text = true)
    (hlvl : ∀ b ∈ bs, blockLevelOK b = true) :
    (mdLines bs).filterMap stripMarkdownLine = bs.map SBlock.text := by
  induction bs with
  | nil => rfl
  | cons b rest ih =>
    rw [mdLines]
    rw [List.filterMap_append]
    rw [ih (fun x hx => hplain x (List.mem_cons_of_mem b hx))
      (fun x hx => hlvl x (List.mem_cons_of_mem b hx))]
    cases b with
    | hblock lvl t =>
      have hl := hlvl (.hblock lvl t) (by simp)
      rw [blockLevelOK, decide_eq_true_eq] at hl
      rw [show blockLines (.hblock lvl t) = [strRepeat '#' lvl ++ " " ++ t]
        from rfl]
      rw [List.filterMap_cons,
        stripMarkdownLine_headingLine lvl t hl.1 hl.2
          (hplain (.hblock lvl t) (by simp))]
      rfl
    | pblock t =>
      rw [show blockLines (.pblock t) = [t, ""] from rfl]
      rw [List.filterMap_cons, stripMarkdownLine_plain t
        (hplain (.pblock t) (by simp)), List.filterMap_cons, stripMarkdownLine_blank]
      rfl

theorem extract_candidates_simple (bs : List SBlock)
    (hplain : ∀ b ∈ bs, plainLine b.text = true)
    (hlvl : ∀ b ∈ bs, blockLevelOK b = true) (hne : bs ≠ []) :
    extract_text_from_markdown (convert_to_markdown (simpleDoc bs) false) =
      bs.map SBlock.text := by
  rw [convert_simpleDoc bs hplain, extract_text_from_markdown]
  rw [pySplit_intercalate (mdLines bs)
    (by match bs, hne with | b :: rest, _ => exact mdLines_ne_nil b rest)
    (mdLines_no_newline bs hplain)]
  exact candidates_simple bs hplain hlvl

theorem plain_strip_ne (t : String) (h : plainLine t = true) : pyStrip t ≠ "" := by
  rw [plain_pyStrip t h]
  intro he
  obtain ⟨⟨c, l1, h1, _⟩, _, _⟩ := plain_parts t h
  rw [he] at h1
  exact absurd h1 (by simp [show ("" : String).data = [] from rfl])

theorem extractRec_headN (lvl : Int) (t q : String) (h : pyStrip t ≠ "") :
    extractRec true (headN lvl t) q false = [⟨textPath (childPath q 0), t⟩] := by
  have hstep : extractRec true (headN lvl t) q false =
      ((if pyStrip t ≠ "" then [⟨textPath (childPath q 0), t⟩] else []) ++ []) ++ [] :=
    rfl
  rw [hstep, if_pos h]
  rfl

theorem extractRec_paraN (t q : String) (h : pyStrip t ≠ "") :
    extractRec true (paraN [textN t]) q false = [⟨textPath (childPath q 0), t⟩] := by
  have hstep : extractRec true (paraN [textN t]) q false =
      ((if pyStrip t ≠ "" then [⟨textPath (childPath q 0), t⟩] else []) ++ []) ++ [] :=
    rfl
  rw [hstep, if_pos h]
  rfl

theorem extract_mem_texts (bs : List SBlock)
    (hplain : ∀ b ∈ bs, plainLine b.text = true) :
    ∀ (i : Nat) (p : String) (nd : TextNode),
      nd ∈ extractRecList true (bs.map SBlock.node) p i false →
      nd.text ∈ bs.map SBlock.text := by
  induction bs with
  | nil =>
    intro i p nd h
    rw [show extractRecList true (([] : List SBlock).map SBlock.node) p i false = []
      from rfl] at h
    exact absurd h (List.not_mem_nil nd)
  | cons b rest ih =>
    intro i p nd h
    rw [show extractRecList true ((b :: rest).map SBlock.node) p i false =
      extractRec true b.node (childPath p i) false ++
        extractRecList true (rest.map SBlock.node) p (i + 1) false from rfl] at h
    have hstrip : pyStrip b.text ≠ "" := plain_strip_ne b.text (hplain b (by simp))
    rcases List.mem_append.mp h with h1 | h2
    · cases b with
      | hblock lvl t =>
        rw [show SBlock.node (.hblock lvl t) = headN lvl t from rfl,
          extractRec_headN lvl t (childPath p i) hstrip] at h1
        rw [List.mem_singleton] at h1
        subst h1
        exact List.mem_map.mpr ⟨.hblock lvl t, by simp, rfl⟩
      | pblock t =>
        rw [show SBlock.node (.pblock t) = paraN [textN t] from rfl,
          extractRec_paraN t (childPath p i) hstrip] at h1
        rw [List.mem_singleton] at h1
        subst h1
        exact List.mem_map.mpr ⟨.pblock t, by simp, rfl⟩
    · rw [List.map_cons]
      exact List.mem_cons_of_mem _
        (ih (fun x hx => hplain x (List.mem_cons_of_mem b hx)) (i + 1) p nd h2)

theorem overlap_self (t : String) (h : wordSet t ≠ ∅) :
    compute_word_overlap t t = ⟨(wordSet t).card, (wordSet t).card⟩ ∧
      0 < (wordSet t).card := by
  have hcard : 0 < (wordSet t).card :=
    Finset.card_pos.mpr (Finset.nonempty_iff_ne_empty.mpr h)
  constructor
  · rw [compute_word_overlap]
    rw [if_neg (by simp [h])]
    rw [Finset.inter_self, Finset.union_self]
    rw [if_pos hcard]
  · exact hcard

theorem overlap_den_pos (t c : String) : 0 < (compute_word_overlap t c).den := by
  show 0 < (if wordSet t = ∅ ∨ wordSet c = ∅ then (⟨0, 1⟩ : Score)
    else if 0 < (wordSet t ∪ wordSet c).card then
      ⟨(wordSet t ∩ wordSet c).card, (wordSet t ∪ wordSet c).card⟩
    else ⟨0, 1⟩).den
  by_cases h : wordSet t = ∅ ∨ wordSet c = ∅
  · rw [if_pos h]; exact Nat.one_pos
  · rw [if_neg h]
    by_cases hp : 0 < (wordSet t ∪ wordSet c).card
    · rw [if_pos hp]; exact hp
    · rw [if_neg hp]; exact Nat.one_pos

theorem overlap_imperfect (t c : String) (ht : wordSet t ≠ ∅)
    (hc : wordSet c ≠ ∅) (hne : wordSet c ≠ wordSet t) :
    (compute_word_overlap t c).num < (compute_word_overlap t c).den := by
  rw [compute_word_overlap]
  rw [if_neg (by simp [ht, hc])]
  have hsub : wordSet t ∩ wordSet c ⊆ wordSet t ∪ wordSet c :=
    Finset.inter_subset_union
  have htot : 0 < (wordSet t ∪ wordSet c).card := by
    rw [Finset.card_pos]
    exact Finset.Nonempty.inl (Finset.nonempty_iff_ne_empty.mpr ht)
  rw [if_pos htot]
  show (wordSet t ∩ wordSet c).card < (wordSet t ∪ wordSet c).card
  by_contra hle
  push_neg at hle
  have heq := Finset.eq_of_subset_of_card_le hsub hle
  have hct : wordSet c ⊆ wordSet t := by
    intro x hx
    have hu : x ∈ wordSet t ∪ wordSet c := Finset.mem_union_right _ hx
    rw [← heq] at hu
    exact (Finset.mem_inter.mp hu).1
  have htc : wordSet t ⊆ wordSet c := by
    intro x hx
    have hu : x ∈ wordSet t ∪ wordSet c := Finset.mem_union_left _ hx
    rw [← heq] at hu
    exact (Finset.mem_inter.mp hu).2
  exact hne (Finset.Subset.antisymm hct htc)

theorem scoreGt_perfect_zero (n : Nat) (hn : 0 < n) :
    scoreGt ⟨n, n⟩ ⟨0, 1⟩ = true := by
  rw [scoreGt, decide_eq_true_eq]
  simpa using hn

theorem scoreGe_perfect_threshold (n : Nat) :
    scoreGe ⟨n, n⟩ defaultThreshold = true := by
  rw [defaultThreshold, scoreGe, decide_eq_true_eq]
  show 3 * n ≤ n * 10
  omega

theorem scoreGt_perfect_imperfect (n : Nat) (hn : 0 < n) (o : Score)
    (ho : o.num < o.den) : scoreGt ⟨n, n⟩ o = true := by
  rw [scoreGt, decide_eq_true_eq]
  show o.num * n < n * o.den
  calc o.num * n < o.den * n := (Nat.mul_lt_mul_right hn).mpr ho
    _ = n * o.den := Nat.mul_comm _ _

theorem scoreGt_imperfect_perfect (n : Nat) (o : Score)
    (ho : o.num < o.den) : scoreGt o ⟨n, n⟩ = false := by
  rw [scoreGt, decide_eq_false_iff_not]
  show ¬(n * o.den < o.num * n)
  intro hlt
  have h1 : o.num * n ≤ o.den * n := Nat.mul_le_mul_right n (le_of_lt ho)
  have h2 : o.den * n = n * o.den := Nat.mul_comm _ _
  omega

theorem scoreGt_irrefl (s : Score) : scoreGt s s = false := by
  rw [scoreGt, decide_eq_false_iff_not]
  exact lt_irrefl _

/-- The candidate-scan step of `bestMatch` when `used_edited` is empty. -/
def bmStep (threshold : Score) (t : String)
    (acc : Option (Nat × String) × Score) (p : Nat × String) :
    Option (Nat × String) × Score :=
  let ov := compute_word_overlap t p.2
  if scoreGt ov acc.2 && scoreGe ov threshold then (some p, ov) else acc

theorem bestMatch_nil_used (threshold : Score) (t : String) (cands : List String) :
    bestMatch threshold [] t cands =
      (cands.enum.foldl (bmStep threshold t) (none, ⟨0, 1⟩)).1 := by
  rw [bestMatch]
  have hf : (fun (acc : Option (Nat × String) × Score) (p : Nat × String) =>
      if p.1 ∈ ([] : List Nat) then acc
      else
        let ov := compute_word_overlap t p.2
        if scoreGt ov acc.2 && scoreGe ov threshold then (some p, ov) else acc) =
      bmStep threshold t := by
    funext acc p
    rw [if_neg (List.not_mem_nil p.1)]
    rfl
  rw [hf]

/-- The state invariant of the `bestMatch` scan: 2nd disjunct = nothing
accepted yet, 3rd = an imperfect candidate leads. -/
theorem bm_fold (t : String) (ht : wordSet t ≠ ∅) :
    ∀ (R : List (Nat × String)) (acc : Option (Nat × String) × Score),
      (∀ p ∈ R, wordSet p.2 ≠ ∅ ∧ (wordSet p.2 = wordSet t → p.2 = t)) →
      ((∃ j, acc = (some (j, t), compute_word_overlap t t)) →
        ∃ j, R.foldl (bmStep defaultThreshold t) acc =
          (some (j, t), compute_word_overlap t t)) ∧
      ((acc = (none, ⟨0, 1⟩) ∨
        (∃ j c, c ≠ t ∧ wordSet c ≠ ∅ ∧ wordSet c ≠ wordSet t ∧
          acc = (some (j, c), compute_word_overlap t c))) →
        t ∈ R.map Prod.snd →
        ∃ j, R.foldl (bmStep defaultThreshold t) acc =
          (some (j, t), compute_word_overlap t t)) := by
  obtain ⟨hself, hpos⟩ := overlap_self t ht
  intro R
  induction R with
  | nil =>
    intro acc _
    refine ⟨fun h => h, fun _ hmem => absurd hmem (by simp)⟩
  | cons p R' ih =>
    intro acc hside
    have hp := hside p (by simp)
    have hside' : ∀ q ∈ R', wordSet q.2 ≠ ∅ ∧ (wordSet q.2 = wordSet t → q.2 = t) :=
      fun q hq => hside q (List.mem_cons_of_mem p hq)
    constructor
    · rintro ⟨j, hacc⟩
      subst hacc
      rw [List.foldl_cons]
      have hstep : bmStep defaultThreshold t (some (j, t), compute_word_overlap t t) p =
          (some (j, t), compute_word_overlap t t) := by
        rw [bmStep]
        by_cases hpt : p.2 = t
        · rw [hpt, hself, scoreGt_irrefl]
          rfl
        · have himp : (compute_word_overlap t p.2).num <
              (compute_word_overlap t p.2).den :=
            overlap_imperfect t p.2 ht hp.1 (fun he => hpt (hp.2 he))
          rw [hself, scoreGt_imperfect_perfect _ _ himp]
          rfl
      rw [hstep]
      exact (ih _ hside').1 ⟨j, rfl⟩
    · intro hq2 hmem
      rw [List.foldl_cons]
      by_cases hpt : p.2 = t
      · have hgt : scoreGt (compute_word_overlap t t) acc.2 = true := by
          rcases hq2 with hnone | ⟨j, c, hct, hcw, hcne, hsome⟩
          · rw [hnone]
            show scoreGt (compute_word_overlap t t) ⟨0, 1⟩ = true
            rw [hself]
            exact scoreGt_perfect_zero _ hpos
          · rw [hsome]
            show scoreGt (compute_word_overlap t t) (compute_word_overlap t c) = true
            rw [hself]
            exact scoreGt_perfect_imperfect _ hpos _
              (overlap_imperfect t c ht hcw hcne)
        have hstep : bmStep defaultThreshold t acc p =
            (some (p.1, t), compute_word_overlap t t) := by
          show (if (scoreGt (compute_word_overlap t p.2) acc.2 &&
              scoreGe (compute_word_overlap t p.2) defaultThreshold) = true
            then ((some p, compute_word_overlap t p.2) :
              Option (Nat × String) × Score)
            else acc) = (some (p.1, t), compute_word_overlap t t)
          rw [hpt]
          rw [hgt, show scoreGe (compute_word_overlap t t) defaultThreshold = true
            from by rw [hself]; exact scoreGe_perfect_threshold _]
          rw [show ((true && true) = true) from rfl, if_pos rfl]
          have hpp : (p.1, t) = p := by rw [← hpt]
          rw [hpp]
        rw [hstep]
        exact (ih _ hside').1 ⟨p.1, rfl⟩
      · have hmem' : t ∈ R'.map Prod.snd := by
          rw [List.map_cons] at hmem
          rcases List.mem_cons.mp hmem with h1 | h2
          · exact absurd h1.symm hpt
          · exact h2
        have hq2' : bmStep defaultThreshold t acc p = (none, ⟨0, 1⟩) ∨
            (∃ j c, c ≠ t ∧ wordSet c ≠ ∅ ∧ wordSet c ≠ wordSet t ∧
              bmStep defaultThreshold t acc p =
                (some (j, c), compute_word_overlap t c)) := by
          rw [bmStep]
          by_cases hcond : (scoreGt (compute_word_overlap t p.2) acc.2 &&
              scoreGe (compute_word_overlap t p.2) defaultThreshold) = true
          · right
            refine ⟨p.1, p.2, hpt, hp.1, fun he => hpt (hp.2 he), ?_⟩
            rw [if_pos hcond]
          · rcases hq2 with hnone | ⟨j, c, hct, hcw, hcne, hsome⟩
            · left
              rw [if_neg (by simp [hcond]), hnone]
            · right
              refine ⟨j, c, hct, hcw, hcne, ?_⟩
              rw [if_neg (by simp [hcond]), hsome]
        exact (ih _ hside').2 hq2' hmem'

theorem bestMatch_self (t : String) (cands : List String) (ht : wordSet t ≠ ∅)
    (hc : ∀ c ∈ cands, wordSet c ≠ ∅ ∧ (wordSet c = wordSet t → c = t))
    (htc : t ∈ cands) :
    ∃ j, bestMatch defaultThreshold [] t cands = some (j, t) := by
  rw [bestMatch_nil_used]
  have hside : ∀ p ∈ cands.enum, wordSet p.2 ≠ ∅ ∧
      (wordSet p.2 = wordSet t → p.2 = t) := by
    intro p hp
    have hp2 : p.2 ∈ cands := by
      rw [← List.enum_map_snd cands]
      exact List.mem_map_of_mem Prod.snd hp
    exact hc p.2 hp2
  have hmem : t ∈ cands.enum.map Prod.snd := by
    rw [List.enum_map_snd cands]
    exact htc
  obtain ⟨j, hj⟩ := (bm_fold t ht cands.enum (none, ⟨0, 1⟩) hside).2 (Or.inl rfl) hmem
  exact ⟨j, by rw [hj]⟩

theorem pairwise_wordSet_inj (ts : List String)
    (h : ts.Pairwise (fun a b => wordSet a ≠ wordSet b)) :
    ∀ s ∈ ts, ∀ u ∈ ts, wordSet u = wordSet s → u = s := by
  induction ts with
  | nil => intro s hs; exact absurd hs (List.not_mem_nil s)
  | cons a l ih =>
    intro s hs u hu hw
    have hp := List.pairwise_cons.mp h
    rcases List.mem_cons.mp hs with hs1 | hs2
    · rcases List.mem_cons.mp hu with hu1 | hu2
      · rw [hs1, hu1]
      · subst hs1
        exact absurd hw.symm (hp.1 u hu2)
    · rcases List.mem_cons.mp hu with hu1 | hu2
      · subst hu1
        exact absurd hw (hp.1 s hs2)
      · exact ih hp.2 s hs2 u hu2 hw

theorem ccg_no_changes (cands : List String) :
    ∀ nodes : List TextNode,
      (∀ nd ∈ nodes, ∃ j,
        bestMatch defaultThreshold [] nd.text cands = some (j, nd.text)) →
      computeChangesGo defaultThreshold cands nodes [] = ([], []) := by
  intro nodes
  induction nodes with
  | nil => intro _; rfl
  | cons nd ns ih =>
    intro h
    obtain ⟨j, hj⟩ := h nd (by simp)
    rw [computeChangesGo, hj]
    show (if nd.text ≠ nd.text then _ else computeChangesGo defaultThreshold cands ns []) = ([], [])
    rw [if_neg (by simp)]
    exact ih (fun x hx => h x (List.mem_cons_of_mem nd hx))

theorem apply_nil (adf : Node) : apply_text_changes adf [] = .ok adf := rfl

/-- C1 (amended): the unedited round trip is the identity on simple
documents — top-level headings (levels 1–6) and paragraphs, each holding a
single round-trip-stable text leaf, with pairwise-distinct word sets.  The
diff is empty and applying it returns the original tree.  (The original
universally-quantified claim fails on multi-leaf paragraphs, see the
counterexample.) -/
theorem C1_amended (bs : List SBlock)
    (hplain : ∀ b ∈ bs, plainLine b.text = true)
    (hlvl : ∀ b ∈ bs, blockLevelOK b = true)
    (hws : ∀ b ∈ bs, wordSet b.text ≠ ∅)
    (hdist : bs.Pairwise (fun a b => wordSet a.text ≠ wordSet b.text)) :
    compute_changes defaultThreshold (extract_text_nodes true (simpleDoc bs))
        (convert_to_markdown (simpleDoc bs) false) = [] ∧
    apply_text_changes (simpleDoc bs)
        (compute_changes defaultThreshold (extract_text_nodes true (simpleDoc bs))
          (convert_to_markdown (simpleDoc bs) false)) = .ok (simpleDoc bs) := by
  have hchanges : compute_changes defaultThreshold
      (extract_text_nodes true (simpleDoc bs))
      (convert_to_markdown (simpleDoc bs) false) = [] := by
    cases bs with
    | nil => rfl
    | cons b rest =>
      rw [compute_changes]
      rw [show extract_text_nodes true (simpleDoc (b :: rest)) =
        extractRecList true ((b :: rest).map SBlock.node) "" 0 false from rfl]
      rw [extract_candidates_simple (b :: rest) hplain hlvl (by simp)]
      have hbm : ∀ nd ∈ extractRecList true ((b :: rest).map SBlock.node) "" 0 false,
          ∃ j, bestMatch defaultThreshold [] nd.text ((b :: rest).map SBlock.text) =
            some (j, nd.text) := by
        intro nd hnd
        have htext := extract_mem_texts (b :: rest) hplain 0 "" nd hnd
        apply bestMatch_self
        · obtain ⟨bb, hbb, hbt⟩ := List.mem_map.mp htext
          rw [← hbt]
          exact hws bb hbb
        · intro c hcmem
          obtain ⟨cb, hcb, hct⟩ := List.mem_map.mp hcmem
          refine ⟨by rw [← hct]; exact hws cb hcb, ?_⟩
          intro hweq
          exact pairwise_wordSet_inj ((b :: rest).map SBlock.text)
            (List.Pairwise.map SBlock.text (fun x y hxy => hxy) hdist)
            nd.text htext c hcmem hweq
        · exact htext
      rw [ccg_no_changes ((b :: rest).map SBlock.text)
        (extractRecList true ((b :: rest).map SBlock.node) "" 0 false) hbm]
  refine ⟨hchanges, ?_⟩
  rw [hchanges]
  exact apply_nil (simpleDoc bs)

/-- A concrete simple document for the C1 witness. -/
def demoBlocks : List SBlock :=
  [.hblock 1 "Alpha", .pblock "beta gamma", .hblock 2 "Delta"]

theorem C1_amended_witness :
    ((∀ b ∈ demoBlocks, plainLine b.text = true) ∧
     (∀ b ∈ demoBlocks, blockLevelOK b = true) ∧
     (∀ b ∈ demoBlocks, wordSet b.text ≠ ∅) ∧
     demoBlocks.Pairwise (fun a b => wordSet a.text ≠ wordSet b.text)) ∧
    (compute_changes defaultThreshold (extract_text_nodes true (simpleDoc demoBlocks))
        (convert_to_markdown (simpleDoc demoBlocks) false) = [] ∧
     apply_text_changes (simpleDoc demoBlocks)
        (compute_changes defaultThreshold
          (extract_text_nodes true (simpleDoc demoBlocks))
          (convert_to_markdown (simpleDoc demoBlocks) false)) =
       .ok (simpleDoc demoBlocks)) :=
  ⟨⟨by decide, by decide, by decide, by decide⟩,
   C1_amended demoBlocks (by decide) (by decide) (by decide) (by decide)⟩

end ADF
